import Mathlib

/-!
Verification of the ReportSys report-generation service core against its
specification.  The TypeScript sources are shallowly embedded: runtime values
flowing through the engine are modelled by the inductive `JsValue`, JS objects
and `Map`s by insertion-ordered association lists, 96-bit ObjectIds by natural
numbers below `2 ^ 96`, JS numbers by rationals, and fallible code by
`Except`-valued functions.  Each embedded definition keeps the name and the
control flow of the source function it translates (file and line references
are given in the doc comments).
-/

/-- Runtime values handled by the worker: `null`/`undefined`, booleans, numbers
(modelled as rationals; IEEE-754 rounding is not modelled), strings, BSON
ObjectIds (96-bit naturals), `Date`s (epoch milliseconds), arrays, and plain
string-keyed objects in insertion order. -/
inductive JsValue where
  | null
  | bool (b : Bool)
  | num (q : Rat)
  | str (s : String)
  | oid (n : Nat)
  | date (ms : Int)
  | arr (items : List JsValue)
  | obj (fields : List (String × JsValue))

/-- A JS object (`Record<string, unknown>`), e.g. one report row or one reduce
partial: an insertion-ordered association list with (by construction) unique
keys. -/
abbrev Row := List (String × JsValue)

/-- JS property access / `Map.get`: the value at the first matching key,
`none` for `undefined`. -/
def mapGet {α : Type} : List (String × α) → String → Option α
  | [], _ => none
  | e :: rest, k => if e.1 = k then some e.2 else mapGet rest k

/-- JS property assignment / `Map.set`: replace the value at an existing key in
place, otherwise append the binding at the end. -/
def mapSet {α : Type} : List (String × α) → String → α → List (String × α)
  | [], k, v => [(k, v)]
  | e :: rest, k, v => if e.1 = k then (k, v) :: rest else e :: mapSet rest k v

/-- `Object.fromEntries`: later bindings for the same key overwrite earlier
ones in place. -/
def jsFromEntries (l : List (String × JsValue)) : Row :=
  l.foldl (fun acc e => mapSet acc e.1 e.2) []

/-- Hex digits of `n` in the lowercase alphabet, left-padded to the 24 digits
of an ObjectId (`ObjectId.toHexString`); ObjectId values are below `2 ^ 96`. -/
def oidHex (n : Nat) : String :=
  let ds := Nat.toDigits 16 n
  ⟨List.replicate (24 - ds.length) '0' ++ ds⟩

/-- Left-pad a (nonnegative) integer to two decimal digits. -/
def pad2 (n : Int) : String :=
  if n < 10 then "0" ++ toString n else toString n

/-- Left-pad a (nonnegative) integer to three decimal digits. -/
def pad3 (n : Int) : String :=
  if n < 10 then "00" ++ toString n
  else if n < 100 then "0" ++ toString n
  else toString n

/-- Left-pad a (nonnegative) integer to four decimal digits. -/
def pad4 (n : Int) : String :=
  if n < 10 then "000" ++ toString n
  else if n < 100 then "00" ++ toString n
  else if n < 1000 then "0" ++ toString n
  else toString n

/-- Proleptic-Gregorian civil date `(year, month, day)` from days since the
Unix epoch (the standard era-based algorithm). -/
def civilFromDays (z0 : Int) : Int × Int × Int :=
  let z := z0 + 719468
  let era := Int.fdiv z 146097
  let doe := z - era * 146097
  let yoe := Int.fdiv (doe - Int.fdiv doe 1460 + Int.fdiv doe 36524 - Int.fdiv doe 146096) 365
  let y := yoe + era * 400
  let doy := doe - (365 * yoe + Int.fdiv yoe 4 - Int.fdiv yoe 100)
  let mp := Int.fdiv (5 * doy + 2) 153
  let d := doy - Int.fdiv (153 * mp + 2) 5 + 1
  let m := mp + (if mp < 10 then 3 else -9)
  (y + (if m ≤ 2 then 1 else 0), m, d)

/-- `Date.prototype.toISOString`: UTC ISO-8601 with millisecond precision
(`YYYY-MM-DDTHH:mm:ss.sssZ`; the expanded-year form for dates outside years
0-9999 is not modelled). -/
def isoString (ms : Int) : String :=
  let day := Int.fdiv ms 86400000
  let rem := ms - day * 86400000
  let c := civilFromDays day
  let hh := Int.fdiv rem 3600000
  let mi := Int.fdiv rem 60000 % 60
  let ss := Int.fdiv rem 1000 % 60
  let msr := rem % 1000
  pad4 c.1 ++ "-" ++ pad2 c.2.1 ++ "-" ++ pad2 c.2.2 ++ "T" ++ pad2 hh ++ ":" ++
    pad2 mi ++ ":" ++ pad2 ss ++ "." ++ pad3 msr ++ "Z"

/-- JSON escape of a single character, as `JSON.stringify` emits it. -/
def escapeChar (c : Char) : String :=
  if c = '"' then "\\\""
  else if c = '\\' then "\\\\"
  else if c = '\n' then "\\n"
  else if c = '\r' then "\\r"
  else if c = '\t' then "\\t"
  else if c = '\x08' then "\\b"
  else if c = '\x0c' then "\\f"
  else if c.toNat < 32 then
    "\\u00" ++ String.singleton (Nat.digitChar (c.toNat / 16)) ++
      String.singleton (Nat.digitChar (c.toNat % 16))
  else String.singleton c

/-- JSON string literal for `s`, double-quoted and escaped. -/
def escapeJsonString (s : String) : String :=
  "\"" ++ String.join (s.data.map escapeChar) ++ "\""

/-- JSON rendering of a JS number.  Integral values render as their decimal
digits exactly as JS prints them; the decimal shortest-round-trip rendering of
non-integral doubles is not modelled (no claim inspects it). -/
def jsonNum (q : Rat) : String :=
  if q.den = 1 then toString q.num else toString q.num ++ "/" ++ toString q.den

mutual

/-- `JSON.stringify` on runtime values: ObjectIds serialize via their `toJSON`
(the 24-hex string), `Date`s via theirs (the ISO-8601 string); arrays and
objects recurse, objects in insertion order. -/
def stringify : JsValue → String
  | .null => "null"
  | .bool b => cond b "true" "false"
  | .num q => jsonNum q
  | .str s => escapeJsonString s
  | .oid n => escapeJsonString (oidHex n)
  | .date ms => escapeJsonString (isoString ms)
  | .arr items => "[" ++ stringifyItems items ++ "]"
  | .obj fields => "\x7b" ++ stringifyFields fields ++ "\x7d"

/-- Comma-separated serialization of array elements. -/
def stringifyItems : List JsValue → String
  | [] => ""
  | [v] => stringify v
  | v :: rest => stringify v ++ "," ++ stringifyItems rest

/-- Comma-separated serialization of object entries. -/
def stringifyFields : List (String × JsValue) → String
  | [] => ""
  | [(k, v)] => escapeJsonString k ++ ":" ++ stringify v
  | (k, v) :: rest => escapeJsonString k ++ ":" ++ stringify v ++ "," ++ stringifyFields rest

end

mutual

/-- `normalizeValue` (worker `helpers.ts`, `src/unnamed/part_002` lines 35-58):
ObjectIds become their 24-hex strings, `Date`s their ISO-8601 strings, arrays
and plain objects are normalized recursively, and every other value passes
through unchanged. -/
def normalizeValue : JsValue → JsValue
  | .oid n => .str (oidHex n)
  | .date ms => .str (isoString ms)
  | .arr items => .arr (normalizeList items)
  | .obj fields => .obj (normalizeFields fields)
  | v => v

/-- Element-wise normalization of an array (`value.map(normalizeValue)`). -/
def normalizeList : List JsValue → List JsValue
  | [] => []
  | v :: rest => normalizeValue v :: normalizeList rest

/-- Value-wise normalization of an object's entries (keys preserved). -/
def normalizeFields : List (String × JsValue) → List (String × JsValue)
  | [] => []
  | (k, v) :: rest => (k, normalizeValue v) :: normalizeFields rest

end

/-- A filter key is dropped when it begins with `$` or contains `.`
(`key.startsWith('$') || key.includes('.')`, stated over the character
list). -/
def badKey (k : String) : Bool :=
  (match k.data with
   | '$' :: _ => true
   | _ => false) ||
    k.data.contains '.'

/-- The JS test `value && typeof value === 'object' && !Array.isArray(value)`:
true for plain objects and also for `Date`s and ObjectIds (which are truthy
non-array objects). -/
def jsIsNonArrayObject : JsValue → Bool
  | .obj _ => true
  | .date _ => true
  | .oid _ => true
  | _ => false

mutual

/-- `sanitizeFilters` (worker `helpers.ts`, `src/unnamed/part_002` lines
12-33): falsy values, non-objects and arrays map to the empty object;
otherwise the own enumerable entries are filtered.  `Date`/ObjectId inputs
reach `Object.entries`, which yields no enumerable own entries, hence also the
empty object. -/
def sanitizeFilters : JsValue → Row
  | .obj fields => sanitizeEntries fields
  | _ => []

/-- Entry filter of `sanitizeFilters`: keys beginning with `$` or containing
`.` are skipped; truthy non-array object values are sanitized recursively
(wrapped back as an object); all other values pass through unchanged. -/
def sanitizeEntries : List (String × JsValue) → Row
  | [] => []
  | (k, v) :: rest =>
    if badKey k then sanitizeEntries rest
    else if jsIsNonArrayObject v then (k, .obj (sanitizeFilters v)) :: sanitizeEntries rest
    else (k, v) :: sanitizeEntries rest

end

mutual

/-- Detector for a key beginning with `$` or containing `.` at any depth of a
value, descending through arrays as well as objects (the strong reading of the
spec's recursive no-bad-key invariant). -/
def hasBadKeyDeep : JsValue → Bool
  | .arr items => hasBadKeyDeepItems items
  | .obj fields => hasBadKeyDeepFields fields
  | _ => false

/-- `hasBadKeyDeep` over the elements of an array. -/
def hasBadKeyDeepItems : List JsValue → Bool
  | [] => false
  | v :: rest => hasBadKeyDeep v || hasBadKeyDeepItems rest

/-- `hasBadKeyDeep` over the entries of an object. -/
def hasBadKeyDeepFields : List (String × JsValue) → Bool
  | [] => false
  | (k, v) :: rest => badKey k || hasBadKeyDeep v || hasBadKeyDeepFields rest

end

mutual

/-- No key beginning with `$` or containing `.` is reachable from this value
through nested objects only (array children are not descended into). -/
def objPathClean : JsValue → Bool
  | .obj fields => objPathCleanFields fields
  | _ => true

/-- `objPathClean` over the entries of an object. -/
def objPathCleanFields : List (String × JsValue) → Bool
  | [] => true
  | (k, v) :: rest => !badKey k && objPathClean v && objPathCleanFields rest

end

mutual

/-- A value is portable when it contains no ObjectId and no `Date` at any
depth. -/
def portable : JsValue → Bool
  | .oid _ => false
  | .date _ => false
  | .arr items => portableItems items
  | .obj fields => portableFields fields
  | _ => true

/-- `portable` over the elements of an array. -/
def portableItems : List JsValue → Bool
  | [] => true
  | v :: rest => portable v && portableItems rest

/-- `portable` over the entries of an object. -/
def portableFields : List (String × JsValue) → Bool
  | [] => true
  | (_, v) :: rest => portable v && portableFields rest

end

/-! ### Identifier-range partitioner (`src/unnamed/part_002` lines 396-473) -/

/-- One contiguous identifier range: `[startInclusive, endExclusive)`, the
last range open-ended (`endExclusive = none`).  ObjectIds are their 96-bit
numeric values. -/
structure ObjectIdRange where
  index : Nat
  startInclusive : Nat
  endExclusive : Option Nat
deriving DecidableEq

/-- `bigIntToObjectId`: pad the hex digits to 24 and keep the low 24, i.e.
reduce the value modulo `2 ^ 96`. -/
def toOid (v : Nat) : Nat := v % 2 ^ 96

/-- The partitioning loop of `buildObjectIdRanges` (lines 439-453): for
`index` from the current value while fuel remains, compute
`start = min + index * chunkSize`, stop at the first `start > max`, otherwise
emit the range whose exclusive end is `start + chunkSize` when that is still
`≤ max` and open-ended otherwise. -/
def buildLoop (mn mx chunkSize : Nat) : Nat → Nat → List ObjectIdRange
  | 0, _ => []
  | fuel + 1, index =>
    let start := mn + index * chunkSize
    if mx < start then []
    else
      let nextStart := start + chunkSize
      { index := index
        startInclusive := toOid start
        endExclusive := if nextStart ≤ mx then some (toOid nextStart) else none } ::
        buildLoop mn mx chunkSize fuel (index + 1)

/-- `buildObjectIdRanges(minId, maxId, requestedChunks)` (lines 411-456):
empty when `max < min`; one open-ended range at `minId` when
`max(1, requestedChunks) = 1`; otherwise split `[min, max]` with
`chunkSize = ⌈span / chunks⌉` computed in ceiling arithmetic. -/
def buildObjectIdRanges (minId maxId : Nat) (requestedChunks : Nat) : List ObjectIdRange :=
  let mn := minId
  let mx := maxId
  if mx < mn then []
  else
    let chunks := max 1 requestedChunks
    if chunks = 1 then [⟨0, minId, none⟩]
    else
      let span := mx - mn + 1
      let chunkSize := (span + chunks - 1) / chunks
      buildLoop mn mx chunkSize chunks 0

/-- Chunk count of `runPartitionedReduce` over a non-empty dataset
(`src/apps/worker/src/job-processor.ts` lines 106-108 and 182): the job's
reported `chunks` is the length of the range list built from
`requestedChunks = partitionSpec.chunks ?? partitionDefaultChunks`; no other
bound is applied to the requested chunk count. -/
def runPartitionedReduceChunks (minId maxId : Nat) (partitionChunks : Option Nat)
    (partitionDefaultChunks : Nat) : Nat :=
  (buildObjectIdRanges minId maxId (partitionChunks.getD partitionDefaultChunks)).length

/-- Adjacency check on a range list: every range's exclusive end equals the
next range's inclusive start. -/
def chainOk : List ObjectIdRange → Bool
  | r1 :: r2 :: rest => (r1.endExclusive == some r2.startInclusive) && chainOk (r2 :: rest)
  | _ => true

/-! ### NDJSON snapshot (`src/unnamed/part_002` lines 65-121) -/

/-- Successful snapshot result `{path, rowCount, bytes}`. -/
structure SnapshotResult where
  path : String
  rowCount : Nat
  bytes : Nat
deriving DecidableEq

/-- Observable outcome of a `writeSnapshot` call: the returned value or the
raised error, whether the temp file still exists afterwards, and its
contents. -/
structure SnapshotRun where
  result : Except String SnapshotResult
  fileExists : Bool
  content : String

/-- The size-cap error message thrown at line 95. -/
def snapshotSizeMessage (maxBytes : Nat) : String :=
  "Temporary snapshot size exceeded REPORT_TMP_MAX_BYTES (" ++ toString maxBytes ++ " bytes)"

/-- One NDJSON line: the JSON-serialized row, LF-terminated. -/
def snapshotLineFor (row : Row) : String := stringify (.obj row) ++ "\n"

/-- `Buffer.byteLength` of one line: its UTF-8 byte count. -/
def snapshotLineBytes (row : Row) : Nat := (snapshotLineFor row).utf8ByteSize

/-- The row loop of `writeSnapshot` (lines 88-120): per row, add the line's
byte count to the running total before the cap check; if the total now
exceeds `maxBytes`, throw — the over-limit line is not written — and the
catch block destroys the writer and removes the partial file; otherwise write
the line and count the row. -/
def writeSnapshotGo (path : String) (maxBytes : Nat) :
    List Row → Nat → Nat → String → SnapshotRun
  | [], rowCount, bytes, content => ⟨.ok ⟨path, rowCount, bytes⟩, true, content⟩
  | row :: rest, rowCount, bytes, content =>
    let line := snapshotLineFor row
    let bytes2 := bytes + line.utf8ByteSize
    if maxBytes < bytes2 then ⟨.error (snapshotSizeMessage maxBytes), false, ""⟩
    else writeSnapshotGo path maxBytes rest (rowCount + 1) bytes2 (content ++ line)

/-- `writeSnapshot(rows, tmpDir, fileName, maxBytes, ...)`: stream the rows to
`join(tmpDir, fileName)` under the byte cap.  Back-pressure handling and the
progress callback have no observable effect on the result and are not
modelled. -/
def writeSnapshot (rows : List Row) (tmpDir fileName : String) (maxBytes : Nat) : SnapshotRun :=
  writeSnapshotGo (tmpDir ++ "/" ++ fileName) maxBytes rows 0 0 ""

/-! ### Paginated-document generator
(`src/packages/report-generators/src/index.ts` lines 160-189) -/

/-- The row-limit error message thrown at line 175. -/
def pdfLimitMessage (maxRows : Nat) : String :=
  "PDF row limit exceeded. max=" ++ toString maxRows ++ ", received>" ++ toString maxRows

/-- The row loop of `createPdfStream`: per row increment the 1-based index,
throw (destroying the output stream with the error) once the index exceeds
`pdfMaxRows` when that option is set, otherwise append the text line
`<index>. <JSON(row)>`. -/
def pdfGo (pdfMaxRows : Option Nat) : List Row → Nat → List String → Except String (List String)
  | [], _, acc => .ok acc
  | row :: rest, index, acc =>
    let index2 := index + 1
    match pdfMaxRows with
    | some maxRows =>
      if maxRows < index2 then .error (pdfLimitMessage maxRows)
      else pdfGo pdfMaxRows rest index2 (acc ++ [toString index2 ++ ". " ++ stringify (.obj row)])
    | none => pdfGo pdfMaxRows rest index2 (acc ++ [toString index2 ++ ". " ++ stringify (.obj row)])

/-- `createPdfStream(rows, options)` reduced to its observable text content:
the "Report" title line followed by one line per row, or the destroying
error. -/
def createPdfStreamRun (rows : List Row) (pdfMaxRows : Option Nat) : Except String (List String) :=
  pdfGo pdfMaxRows rows 0 ["Report"]

/-- Characters of `s` lowered with `Char.toLower` (the case folding a
case-insensitive regex applies to ASCII text). -/
def lowerData (s : String) : List Char := s.data.map Char.toLower

/-- Case-insensitive substring test: whether `/pat/i` (a literal pattern)
matches somewhere in `s`. -/
def containsLower (s pat : String) : Bool :=
  (lowerData s).tails.any (fun t => (lowerData pat).isPrefixOf t)

/-! ### Reduce engine (`src/apps/worker/src/reduce-engine.ts`) -/

/-- The five reduce operations. -/
inductive ReduceOp where
  | count
  | sum
  | min
  | max
  | avg
deriving DecidableEq

/-- `ReduceMetricSpec`: operation, optional source field, output alias. -/
structure ReduceMetricSpec where
  op : ReduceOp
  field : Option String
  as : String
deriving DecidableEq

/-- `ReduceSpec`: ordered `groupBy` fields and the metrics list. -/
structure ReduceSpec where
  groupBy : List String
  metrics : List ReduceMetricSpec
deriving DecidableEq

/-- Errors raised by the reduce accumulator: the `maxGroups` cardinality cap
(line 285) and the non-numeric-value throw of `numericFrom` (line 44).  The
JS code throws `Error`s; this type records which throw site fired and the
message parameters. -/
inductive ReduceError where
  | cardinalityExceeded (maxGroups : Nat)
  | nonNumericField (fieldName : String)
deriving DecidableEq

/-- The exact message carried by each `ReduceError`. -/
def reduceErrorMessage : ReduceError → String
  | .cardinalityExceeded mg =>
    "Reduce group cardinality exceeded REPORT_REDUCE_MAX_GROUPS (" ++ toString mg ++ ")"
  | .nonNumericField f => "Non numeric value found in reduce field: " ++ f

/-- The `__input_count` field added to every partial. -/
def inputCountField : String := "__input_count"

/-- The `__avg_sum__<as>` partial field of an `avg` metric. -/
def avgSumKeyFor (as : String) : String := "__avg_sum__" ++ as

/-- The `__avg_count__<as>` partial field of an `avg` metric. -/
def avgCountKeyFor (as : String) : String := "__avg_count__" ++ as

/-- `numericFrom(value, fieldName)` (lines 36-48): `null`/`undefined` count as
0; otherwise coerce with `Number(...)` and throw on a non-finite result.
Booleans coerce to 1/0 and `Date`s to their epoch milliseconds; the exotic
`Number(...)` coercions of strings and arrays (which yield a number for
numeric strings, `""` or singleton arrays) are modelled as non-numeric —
partials produced by the aggregation pipeline never carry them. -/
def numericFrom (value : Option JsValue) (fieldName : String) : Except ReduceError Rat :=
  match value with
  | none => .ok 0
  | some .null => .ok 0
  | some (.num q) => .ok q
  | some (.bool b) => .ok (cond b 1 0)
  | some (.date ms) => .ok (ms : Rat)
  | some (.str _) => .error (.nonNumericField fieldName)
  | some (.oid _) => .error (.nonNumericField fieldName)
  | some (.arr _) => .error (.nonNumericField fieldName)
  | some (.obj _) => .error (.nonNumericField fieldName)

/-- Alias/field identifier rule `^[A-Za-z0-9_]+$`. -/
def isIdentName (s : String) : Bool :=
  !s.data.isEmpty && s.data.all (fun c => c.isAlphanum || c = '_')

/-- The metrics loop of `validateReduceSpec` (lines 103-119), carrying the set
of aliases seen so far. -/
def validateMetrics (seen : List String) : List ReduceMetricSpec → Except String Unit
  | [] => .ok ()
  | m :: rest =>
    if !isIdentName m.as then .error ("Invalid metric alias: " ++ m.as)
    else if m.as ∈ seen then .error ("Duplicated metric alias: " ++ m.as)
    else
      match m.op, m.field with
      | .count, _ => validateMetrics (seen ++ [m.as]) rest
      | _, none => .error ("Metric " ++ m.as ++ " requires a valid field")
      | _, some f =>
        if isIdentName f then validateMetrics (seen ++ [m.as]) rest
        else .error ("Metric " ++ m.as ++ " requires a valid field")

/-- `validateReduceSpec` (lines 90-120): non-empty metrics, identifier-safe
`groupBy` fields, identifier-safe unique aliases, and a valid `field` for
every non-`count` metric. -/
def validateReduceSpec (spec : ReduceSpec) : Except String Unit :=
  if spec.metrics.isEmpty then .error "reduceSpec.metrics must contain at least one metric"
  else
    match spec.groupBy.find? (fun f => !isIdentName f) with
    | some f => .error ("Invalid groupBy field: " ++ f)
    | none => validateMetrics [] spec.metrics

/-- Running sum/count pair of an `avg` metric. -/
structure AverageState where
  sum : Rat
  count : Rat
deriving DecidableEq

/-- Per-group accumulator state `{group, values, averages, inputCount}`
(lines 9-14). -/
structure ReduceGroupState where
  group : Row
  values : List (String × JsValue)
  averages : List (String × AverageState)
  inputCount : Rat

/-- The accumulator's keyed group map, in insertion order. -/
abbrev AccState := List (String × ReduceGroupState)

/-- `decodeGroup(groupBy, rawGroup)` (lines 154-165): `{}` for an empty
`groupBy`; all-null fields when the raw `_id` is missing or not an object;
otherwise each `groupBy` field's value with `?? null`.  The raw `_id` produced
by the `$group` stage is a document or absent, so the non-plain-object cases
(arrays, `Date`s, ObjectIds — whose property lookups yield `undefined`) are
modelled by the all-null branch. -/
def decodeGroup (groupBy : List String) (rawGroup : Option JsValue) : Row :=
  if groupBy.isEmpty then []
  else
    match rawGroup with
    | some (.obj fields) =>
      jsFromEntries (groupBy.map (fun f => (f, (mapGet fields f).getD .null)))
    | _ => jsFromEntries (groupBy.map (fun f => (f, JsValue.null)))

/-- `pickComparable` projections (lines 167-181): epoch milliseconds for
`Date`s, numbers and strings natively, `null` for every other type. -/
inductive Comparable where
  | num (q : Rat)
  | str (s : String)
deriving DecidableEq

/-- `pickComparable(value)`. -/
def pickComparable : JsValue → Option Comparable
  | .date ms => some (.num ms)
  | .num q => some (.num q)
  | .str s => some (.str s)
  | _ => none

/-- The JS `<` on two comparable projections: numeric on numbers, code-point
lexicographic on strings.  A mixed comparison coerces the string operand to a
number and is `false` on NaN; numeric strings cannot occur here, so mixed
comparisons are modelled as `false`. -/
def compLt : Comparable → Comparable → Bool
  | .num a, .num b => a < b
  | .str a, .str b => a < b
  | _, _ => false

/-- `mergeMetricValue(state, metric, doc)` (lines 183-233), as a pure function
on the group state.  Each `throw` happens before the state write of its
branch, so an error leaves the group state unchanged. -/
def mergeMetricValue (state : ReduceGroupState) (metric : ReduceMetricSpec) (doc : Row) :
    Except ReduceError ReduceGroupState :=
  match metric.op with
  | .avg =>
    match numericFrom (mapGet doc (avgSumKeyFor metric.as)) (metric.as ++ ".sum") with
    | .error e => .error e
    | .ok sum =>
      match numericFrom (mapGet doc (avgCountKeyFor metric.as)) (metric.as ++ ".count") with
      | .error e => .error e
      | .ok count =>
        let previous := (mapGet state.averages metric.as).getD ⟨0, 0⟩
        .ok { state with
              averages :=
                mapSet state.averages metric.as ⟨previous.sum + sum, previous.count + count⟩ }
  | .count =>
    match numericFrom (mapGet doc metric.as) metric.as with
    | .error e => .error e
    | .ok current =>
      match numericFrom (mapGet state.values metric.as) metric.as with
      | .error e => .error e
      | .ok previous =>
        .ok { state with values := mapSet state.values metric.as (.num (previous + current)) }
  | .sum =>
    match numericFrom (mapGet doc metric.as) metric.as with
    | .error e => .error e
    | .ok current =>
      match numericFrom (mapGet state.values metric.as) metric.as with
      | .error e => .error e
      | .ok previous =>
        .ok { state with values := mapSet state.values metric.as (.num (previous + current)) }
  | _ =>
    let current := mapGet doc metric.as
    match mapGet state.values metric.as with
    | none => .ok { state with values := mapSet state.values metric.as (current.getD .null) }
    | some previous =>
      match current with
      | none => .ok state
      | some .null => .ok state
      | some cur =>
        match pickComparable cur, pickComparable previous with
        | some cc, some pc =>
          if (metric.op = .min ∧ compLt cc pc) ∨ (metric.op = .max ∧ compLt pc cc) then
            .ok { state with values := mapSet state.values metric.as cur }
          else .ok state
        | _, _ => .ok state

/-- The metrics loop of `consume` (lines 302-304).  On a throw the merges of
the earlier metrics have already been applied in JS; the whole job aborts and
discards the state in that case, so the model returns the group state as it
was before the failing metric. -/
def mergeMetrics (doc : Row) : List ReduceMetricSpec → ReduceGroupState →
    ReduceGroupState × Option ReduceError
  | [], g => (g, none)
  | m :: rest, g =>
    match mergeMetricValue g m doc with
    | .ok g2 => mergeMetrics doc rest g2
    | .error e => (g, some e)

/-- A fresh group state (lines 290-295). -/
def freshGroup (group : Row) : ReduceGroupState :=
  { group := group, values := [], averages := [], inputCount := 0 }

/-- Lines 300-304 of `consume`: add the partial's `__input_count` to the
group, then fold every metric. -/
def consumeGroup (spec : ReduceSpec) (doc : Row) (g : ReduceGroupState) :
    ReduceGroupState × Option ReduceError :=
  match numericFrom (mapGet doc inputCountField) inputCountField with
  | .error e => (g, some e)
  | .ok q => mergeMetrics doc spec.metrics { g with inputCount := g.inputCount + q }

/-- The canonical group key of a partial row: the JSON of its decoded group
(line 279). -/
def groupKeyOf (spec : ReduceSpec) (doc : Row) : String :=
  stringify (.obj (decodeGroup spec.groupBy (mapGet doc "_id")))

/-- `consume(row)` of `createReduceAccumulator` (lines 277-305): decode the
group, look it up by canonical JSON key; for a new group first enforce
`maxGroups` — the throw happens before any mutation — then insert a fresh
state; finally fold `__input_count` and all metrics into the group.  Returns
the state after the call together with the raised error, if any. -/
def consumeSt (spec : ReduceSpec) (maxGroups : Option Nat) (st : AccState) (doc : Row) :
    AccState × Option ReduceError :=
  let group := decodeGroup spec.groupBy (mapGet doc "_id")
  let key := stringify (.obj group)
  match mapGet st key with
  | some g =>
    let r := consumeGroup spec doc g
    (mapSet st key r.1, r.2)
  | none =>
    match maxGroups with
    | some mg =>
      if mg ≤ st.length then (st, some (.cardinalityExceeded mg))
      else
        let r := consumeGroup spec doc (freshGroup group)
        (st ++ [(key, r.1)], r.2)
    | none =>
      let r := consumeGroup spec doc (freshGroup group)
      (st ++ [(key, r.1)], r.2)

/-- Feeding a row sequence to one accumulator: the state after consuming them
all, or the first raised error (which aborts the job). -/
def consumeAll (spec : ReduceSpec) (maxGroups : Option Nat) :
    AccState → List Row → Except ReduceError AccState
  | st, [] => .ok st
  | st, doc :: rest =>
    match consumeSt spec maxGroups st doc with
    | (st2, none) => consumeAll spec maxGroups st2 rest
    | (_, some e) => .error e

/-- The sort comparator of `toReduceSummary` (line 240) is
`left[0].localeCompare(right[0])`: the host's default-locale collation of the
canonical-JSON group keys.  The source does not fix that order — it is
supplied by the runtime's locale environment — so the embedding takes the
collation as a parameter `lc`, with `lc a b = true` meaning
`a.localeCompare(b) <= 0`.  `keyLeBy lc` lifts it to state entries. -/
def keyLeBy (lc : String → String → Bool) (a b : String × ReduceGroupState) : Prop :=
  lc a.1 b.1 = true

instance (lc : String → String → Bool) : DecidableRel (keyLeBy lc) :=
  fun a b => inferInstanceAs (Decidable (lc a.1 b.1 = true))

/-- Ascending code-point order on strings: the order meant by "ascending
canonical-JSON group key", and the collation of a host whose locale collates
by code point. -/
def codePointLe (a b : String) : Bool := decide (a ≤ b)

/-- Primary collation weight of a character: the default-locale collation
compares base letters before case, so an uppercase ASCII letter weighs the
same as its lowercase letter. -/
def primaryKey (c : Char) : Nat :=
  if 'A' ≤ c ∧ c ≤ 'Z' then c.toNat + 32 else c.toNat

/-- Case-level collation weight of a character: in the default collation a
lowercase letter precedes the corresponding uppercase letter. -/
def caseKey (c : Char) : Nat :=
  if 'A' ≤ c ∧ c ≤ 'Z' then 1 else 0

/-- Lexicographic order on weight lists. -/
def lexLeNat : List Nat → List Nat → Bool
  | [], _ => true
  | _ :: _, [] => false
  | a :: as, b :: bs => if a < b then true else if b < a then false else lexLeNat as bs

/-- The default-locale collation restricted to ASCII, as `localeCompare`
orders strings under the root collation: compare the primary (case-folded)
weights lexicographically, and break a full primary tie by the case weights
(lowercase first).  Under it `"a"` precedes `"B"` and `"br"` precedes
`"BR"`, while code-point order puts `"B"` before `"a"`. -/
def icuLe (a b : String) : Bool :=
  let pa := a.data.map primaryKey
  let pb := b.data.map primaryKey
  if pa = pb then lexLeNat (a.data.map caseKey) (b.data.map caseKey)
  else lexLeNat pa pb

/-- The `sortedEntries` of `toReduceSummary` (lines 239-241) under the host
collation `lc`.  The runtime's sort is stable; since the map's keys are
unique, every comparison sort over a total, transitive collation yields the
same list, here realized by insertion sort. -/
def finalizeEntries (lc : String → String → Bool) (st : AccState) : AccState :=
  st.insertionSort (keyLeBy lc)

/-- The value `toReduceSummary` emits for an `avg` metric alias: `sum/count`,
or null when the count is 0 (lines 251-254). -/
def avgOutput (g : ReduceGroupState) (as : String) : JsValue :=
  let a := (mapGet g.averages as).getD ⟨0, 0⟩
  if a.count = 0 then JsValue.null else .num (a.sum / a.count)

/-- One iteration of the metrics loop of `toReduceSummary`: write the metric's
output value under its alias. -/
def outputStep (g : ReduceGroupState) (output : Row) (m : ReduceMetricSpec) : Row :=
  match m.op with
  | .avg => mapSet output m.as (avgOutput g m.as)
  | _ => mapSet output m.as ((mapGet g.values m.as).getD .null)

/-- The per-group output row of `toReduceSummary` (lines 243-261): the group's
fields, then one field per metric — `sum/count` (or null for an empty count)
for `avg`, the accumulated scalar with `?? null` otherwise. -/
def buildOutputRow (spec : ReduceSpec) (g : ReduceGroupState) : Row :=
  spec.metrics.foldl (outputStep g) g.group

/-- `{rows, rowsIn, rowsOut}` returned by `finalize` (lines 16-20, 235-268). -/
structure ReduceSummary where
  rows : List Row
  rowsIn : Rat
  rowsOut : Nat

/-- `toReduceSummary(spec, state)` (lines 235-268): sort the groups by the
host collation `lc` of their canonical-JSON keys, emit one output row per
group, sum the groups' `inputCount`s into `rowsIn`, and report
`rowsOut = rows.length`. -/
def toReduceSummary (lc : String → String → Bool) (spec : ReduceSpec) (st : AccState) :
    ReduceSummary :=
  let sorted := finalizeEntries lc st
  { rows := sorted.map (fun e => buildOutputRow spec e.2)
    rowsIn := (sorted.map (fun e => e.2.inputCount)).sum
    rowsOut := sorted.length }

/-- The `__input_count` contribution of one partial (0 for `null`/absent, the
numeric value otherwise; on a coercion failure `consume` aborts instead). -/
def inputCountOf (doc : Row) : Rat :=
  ((numericFrom (mapGet doc inputCountField) inputCountField).toOption).getD 0

/-! ### Normalizer theorems (C8, C10) -/

mutual

theorem normalize_idem_value : ∀ v, normalizeValue (normalizeValue v) = normalizeValue v
  | .null => rfl
  | .bool _ => rfl
  | .num _ => rfl
  | .str _ => rfl
  | .oid _ => rfl
  | .date _ => rfl
  | .arr items => by simp [normalizeValue, normalize_idem_items items]
  | .obj fields => by simp [normalizeValue, normalize_idem_fields fields]

theorem normalize_idem_items : ∀ l, normalizeList (normalizeList l) = normalizeList l
  | [] => rfl
  | v :: rest => by
    simp [normalizeList, normalize_idem_value v, normalize_idem_items rest]

theorem normalize_idem_fields : ∀ l, normalizeFields (normalizeFields l) = normalizeFields l
  | [] => rfl
  | (k, v) :: rest => by
    simp [normalizeFields, normalize_idem_value v, normalize_idem_fields rest]

end

/-- C8: normalization is idempotent — for every input value,
`normalize(normalize(v)) = normalize(v)`; identifier and timestamp conversions
produce strings, and strings, scalars, and recursively normalized arrays and
mappings are all fixed points of a second application. -/
theorem normalizeValue_idempotent : ∀ v, normalizeValue (normalizeValue v) = normalizeValue v :=
  normalize_idem_value

mutual

theorem normalize_portable_value : ∀ v, portable (normalizeValue v) = true
  | .null => rfl
  | .bool _ => rfl
  | .num _ => rfl
  | .str _ => rfl
  | .oid _ => rfl
  | .date _ => rfl
  | .arr items => by simp [normalizeValue, portable, normalize_portable_items items]
  | .obj fields => by simp [normalizeValue, portable, normalize_portable_fields fields]

theorem normalize_portable_items : ∀ l, portableItems (normalizeList l) = true
  | [] => rfl
  | v :: rest => by
    simp [normalizeList, portableItems, normalize_portable_value v, normalize_portable_items rest]

theorem normalize_portable_fields : ∀ l, portableFields (normalizeFields l) = true
  | [] => rfl
  | (k, v) :: rest => by
    simp [normalizeFields, portableFields, normalize_portable_value v,
      normalize_portable_fields rest]

end

/-- C10 (implicit): the result of `normalizeValue` contains no ObjectId and no
`Date` at any depth — each ObjectId is replaced by its 24-hex string and each
`Date` by its ISO-8601 string, inside arrays and nested mappings included —
so every value reaching the format generators is a portable scalar, array, or
string-keyed mapping. -/
theorem normalizeValue_portable :
    (∀ v, portable (normalizeValue v) = true) ∧
    (∀ n, normalizeValue (.oid n) = .str (oidHex n)) ∧
    (∀ ms, normalizeValue (.date ms) = .str (isoString ms)) :=
  ⟨normalize_portable_value, fun _ => rfl, fun _ => rfl⟩

/-! ### Filter sanitizer theorems (C7) -/

/-- A value that fails the JS non-array-object test has no object entries to
descend into, so it is clean along mapping paths. -/
theorem objPathClean_of_not_object (v : JsValue) (h : jsIsNonArrayObject v = false) :
    objPathClean v = true := by
  cases v <;> simp_all [jsIsNonArrayObject, objPathClean]

mutual

theorem sanitize_clean_value : ∀ v, objPathCleanFields (sanitizeFilters v) = true
  | .null => rfl
  | .bool _ => rfl
  | .num _ => rfl
  | .str _ => rfl
  | .oid _ => rfl
  | .date _ => rfl
  | .arr _ => rfl
  | .obj fields => sanitize_clean_entries fields

theorem sanitize_clean_entries : ∀ l, objPathCleanFields (sanitizeEntries l) = true
  | [] => rfl
  | (k, v) :: rest => by
    by_cases hk : badKey k
    · simpa [sanitizeEntries, hk] using sanitize_clean_entries rest
    · by_cases hv : jsIsNonArrayObject v
      · simp [sanitizeEntries, hk, hv, objPathCleanFields, objPathClean,
          sanitize_clean_value v, sanitize_clean_entries rest]
      · simp [sanitizeEntries, hk, hv, objPathCleanFields,
          objPathClean_of_not_object v (by simpa using hv), sanitize_clean_entries rest]

end

/-- C7 counterexample: a `$`-key nested inside an array child survives
sanitization.  On the input `{a: [{$where: "1"}]}` the array child is kept
unchanged, so the output still contains the key `$where` at depth 2 — the
claimed invariant "no key beginning with `$` at every nesting depth" fails
once arrays are traversed. -/
theorem sanitizeFilters_counterexample :
    sanitizeFilters (.obj [("a", .arr [.obj [("$where", .str "1")]])]) =
      [("a", .arr [.obj [("$where", .str "1")]])] ∧
    hasBadKeyDeepFields
        (sanitizeFilters (.obj [("a", .arr [.obj [("$where", .str "1")]])])) = true :=
  ⟨rfl, rfl⟩

/-- C7 (amended): the mapping returned by `sanitizeFilters` contains no key
beginning with `$` or containing `.` at any depth reachable through nested
mappings; keys inside array children are not inspected and may survive,
because non-mapping children (scalars, arrays) are kept unchanged under their
key; when the input is not a string-keyed mapping the result is the empty
mapping; nested mappings are sanitized recursively. -/
theorem sanitizeFilters_spec :
    (∀ v, objPathCleanFields (sanitizeFilters v) = true) ∧
    (∀ v, (∀ fields, v ≠ .obj fields) → sanitizeFilters v = []) ∧
    (∀ k fields rest, badKey k = false →
      sanitizeEntries ((k, .obj fields) :: rest) =
        (k, .obj (sanitizeEntries fields)) :: sanitizeEntries rest) ∧
    (∀ k v rest, badKey k = false → jsIsNonArrayObject v = false →
      sanitizeEntries ((k, v) :: rest) = (k, v) :: sanitizeEntries rest) := by
  refine ⟨sanitize_clean_value, ?_, ?_, ?_⟩
  · intro v hv
    cases v <;> first
      | rfl
      | exact absurd rfl (hv _)
  · intro k fields rest hk
    simp [sanitizeEntries, hk, jsIsNonArrayObject, sanitizeFilters]
  · intro k v rest hk hv
    simp [sanitizeEntries, hk, hv]

/-- C7 witness: the amended theorem applied at concrete inputs — a mixed
object is sanitized to mapping-path-clean output, and a scalar input yields
the empty mapping. -/
theorem sanitizeFilters_spec_witness :
    objPathCleanFields
        (sanitizeFilters (.obj [("status", .str "paid"), ("$or", .arr []),
          ("nested", .obj [("ok", .bool true), ("$where", .str "1")])])) = true ∧
    sanitizeFilters (.num 3) = [] :=
  ⟨sanitizeFilters_spec.1 _, sanitizeFilters_spec.2.1 (.num 3) (fun _ h => JsValue.noConfusion h)⟩

/-! ### Snapshot theorems (C3) -/

/-- The file content on a fully written snapshot: the concatenation of the
serialized LF-terminated lines. -/
def concatLines : List Row → String
  | [] => ""
  | row :: rest => snapshotLineFor row ++ concatLines rest

theorem writeSnapshotGo_ok (path : String) (maxBytes : Nat) :
    ∀ (rows : List Row) (rc b : Nat) (c : String),
      b + (rows.map snapshotLineBytes).sum ≤ maxBytes →
      writeSnapshotGo path maxBytes rows rc b c =
        ⟨.ok ⟨path, rc + rows.length, b + (rows.map snapshotLineBytes).sum⟩, true,
          c ++ concatLines rows⟩
  | [], rc, b, c, _ => by simp [writeSnapshotGo, concatLines, String.append_empty]
  | row :: rest, rc, b, c, h => by
    simp only [List.map_cons, List.sum_cons, snapshotLineBytes] at h
    have hlt : ¬ maxBytes < b + (snapshotLineFor row).utf8ByteSize := by omega
    have ih := writeSnapshotGo_ok path maxBytes rest (rc + 1)
      (b + (snapshotLineFor row).utf8ByteSize) (c ++ snapshotLineFor row) (by omega)
    simp only [writeSnapshotGo, hlt, if_false, ih, concatLines, List.map_cons, List.sum_cons,
      List.length_cons, snapshotLineBytes, String.append_assoc, SnapshotRun.mk.injEq,
      Except.ok.injEq, SnapshotResult.mk.injEq, true_and, and_true]
    omega

theorem writeSnapshotGo_err (path : String) (maxBytes : Nat) :
    ∀ (rows : List Row) (rc b : Nat) (c : String),
      b ≤ maxBytes → maxBytes < b + (rows.map snapshotLineBytes).sum →
      writeSnapshotGo path maxBytes rows rc b c =
        ⟨.error (snapshotSizeMessage maxBytes), false, ""⟩
  | [], _, _, _, hb, h => by simp at h; omega
  | row :: rest, rc, b, c, hb, h => by
    simp only [List.map_cons, List.sum_cons] at h
    have heq : (snapshotLineFor row).utf8ByteSize = snapshotLineBytes row := rfl
    by_cases hlt : maxBytes < b + (snapshotLineFor row).utf8ByteSize
    · simp [writeSnapshotGo, hlt]
    · have ih := writeSnapshotGo_err path maxBytes rest (rc + 1)
        (b + (snapshotLineFor row).utf8ByteSize) (c ++ snapshotLineFor row)
        (by omega) (by omega)
      simp [writeSnapshotGo, hlt, ih]

/-- C3: `writeSnapshot` aborts with the `SnapshotSizeExceeded` error exactly
when the cumulative byte count of the JSON-serialized LF-terminated lines
exceeds `maxBytes` — the check runs before each write, so the over-limit line
is never retained and the partial file is removed (`fileExists = false`,
empty content) before the error propagates; otherwise it returns
`{path, rowCount, bytes}` with `rowCount` the number of rows written, `bytes`
the total bytes written, and the file holding exactly the written lines. -/
theorem writeSnapshot_spec (rows : List Row) (tmpDir fileName : String) (maxBytes : Nat) :
    ((rows.map snapshotLineBytes).sum ≤ maxBytes →
      writeSnapshot rows tmpDir fileName maxBytes =
        ⟨.ok ⟨tmpDir ++ "/" ++ fileName, rows.length, (rows.map snapshotLineBytes).sum⟩,
          true, concatLines rows⟩) ∧
    (maxBytes < (rows.map snapshotLineBytes).sum →
      writeSnapshot rows tmpDir fileName maxBytes =
        ⟨.error (snapshotSizeMessage maxBytes), false, ""⟩) := by
  constructor
  · intro h
    have := writeSnapshotGo_ok (tmpDir ++ "/" ++ fileName) maxBytes rows 0 0 "" (by omega)
    simpa [writeSnapshot, String.empty_append] using this
  · intro h
    exact writeSnapshotGo_err (tmpDir ++ "/" ++ fileName) maxBytes rows 0 0 ""
      (by omega) (by omega)

/-- C3 witness: the theorem applied at a one-row snapshot — under a 100-byte
cap it succeeds with 8 bytes written, and under a 3-byte cap it aborts with
the size error and no remaining file. -/
theorem writeSnapshot_spec_witness :
    writeSnapshot [[("a", .num 1)]] "/tmp" "s.ndjson" 100 =
      ⟨.ok ⟨"/tmp/s.ndjson", 1, 8⟩, true, "\x7b\"a\":1\x7d\n"⟩ ∧
    writeSnapshot [[("a", .num 1)]] "/tmp" "s.ndjson" 3 =
      ⟨.error (snapshotSizeMessage 3), false, ""⟩ :=
  ⟨(writeSnapshot_spec [[("a", .num 1)]] "/tmp" "s.ndjson" 100).1 (by decide),
   (writeSnapshot_spec [[("a", .num 1)]] "/tmp" "s.ndjson" 3).2 (by decide)⟩

/-! ### Paginated-document theorems (C4) -/

theorem pdfGo_ok (maxRows : Nat) :
    ∀ (rows : List Row) (index : Nat) (acc : List String),
      index + rows.length ≤ maxRows →
      ∃ lines, pdfGo (some maxRows) rows index acc = .ok lines
  | [], _, acc, _ => ⟨acc, rfl⟩
  | row :: rest, index, acc, h => by
    simp only [List.length_cons] at h
    have hlt : ¬ maxRows < index + 1 := by omega
    have ih := pdfGo_ok maxRows rest (index + 1)
      (acc ++ [toString (index + 1) ++ ". " ++ stringify (.obj row)]) (by omega)
    simpa [pdfGo, hlt] using ih

theorem pdfGo_err (maxRows : Nat) :
    ∀ (rows : List Row) (index : Nat) (acc : List String),
      index ≤ maxRows → maxRows < index + rows.length →
      pdfGo (some maxRows) rows index acc = .error (pdfLimitMessage maxRows)
  | [], _, _, hb, h => by simp at h; omega
  | row :: rest, index, acc, hb, h => by
    simp only [List.length_cons] at h
    by_cases hlt : maxRows < index + 1
    · simp [pdfGo, hlt]
    · have ih := pdfGo_err maxRows rest (index + 1)
        (acc ++ [toString (index + 1) ++ ". " ++ stringify (.obj row)])
        (by omega) (by omega)
      simp [pdfGo, hlt, ih]

theorem lowerData_append (a b : String) : lowerData (a ++ b) = lowerData a ++ lowerData b := by
  simp [lowerData, String.data_append]

theorem containsLower_true_iff (s pat : String) :
    containsLower s pat = true ↔ lowerData pat <:+: lowerData s := by
  simp only [containsLower, List.any_eq_true, List.mem_tails]
  constructor
  · rintro ⟨t, hts, hp⟩
    exact List.infix_iff_prefix_suffix.mpr ⟨t, List.isPrefixOf_iff_prefix.mp hp, hts⟩
  · intro h
    obtain ⟨t, hp, hts⟩ := List.infix_iff_prefix_suffix.mp h
    exact ⟨t, hts, List.isPrefixOf_iff_prefix.mpr hp⟩

theorem containsLower_append_right (a b pat : String) (h : containsLower a pat = true) :
    containsLower (a ++ b) pat = true := by
  rw [containsLower_true_iff] at h ⊢
  rw [lowerData_append]
  obtain ⟨u, v, huv⟩ := h
  exact ⟨u, v ++ lowerData b, by rw [← huv]; simp [List.append_assoc]⟩

/-- Every instance of the row-limit message matches `/PDF row limit
exceeded/i`. -/
theorem pdfLimitMessage_matches (maxRows : Nat) :
    containsLower (pdfLimitMessage maxRows) "PDF row limit exceeded" = true := by
  have : pdfLimitMessage maxRows =
      "PDF row limit exceeded. max=" ++
        (toString maxRows ++ ", received>" ++ toString maxRows) := by
    simp [pdfLimitMessage, String.append_assoc]
  rw [this]
  exact containsLower_append_right _ _ _ (by decide)

/-- C4 counterexample: with `documentMaxRows = 1` and two rows, the generator
does fail — but the destroying error's message is
`PDF row limit exceeded. max=1, received>1`, which does not match the claimed
pattern `/document row limit exceeded/i`. -/
theorem createPdfStream_counterexample :
    createPdfStreamRun [[("a", .num 1)], [("a", .num 2)]] (some 1) =
      .error (pdfLimitMessage 1) ∧
    containsLower (pdfLimitMessage 1) "document row limit exceeded" = false :=
  ⟨rfl, by decide⟩

/-- C4 (amended): with `documentMaxRows` set, if strictly more than that many
rows arrive the generator fails — its byte stream is destroyed with an error
whose message matches `/PDF row limit exceeded/i` — and with at most
`documentMaxRows` rows it completes normally. -/
theorem createPdfStream_rowLimit (rows : List Row) (maxRows : Nat) :
    (maxRows < rows.length →
      createPdfStreamRun rows (some maxRows) = .error (pdfLimitMessage maxRows) ∧
      containsLower (pdfLimitMessage maxRows) "PDF row limit exceeded" = true) ∧
    (rows.length ≤ maxRows →
      ∃ lines, createPdfStreamRun rows (some maxRows) = .ok lines) := by
  constructor
  · intro h
    exact ⟨pdfGo_err maxRows rows 0 ["Report"] (by omega) (by omega),
      pdfLimitMessage_matches maxRows⟩
  · intro h
    exact pdfGo_ok maxRows rows 0 ["Report"] (by omega)

/-- C4 witness: the amended theorem applied at two rows against a limit of 1
(failure with the matching message) and at one row against the same limit
(normal completion). -/
theorem createPdfStream_rowLimit_witness :
    (createPdfStreamRun [[("a", .num 1)], [("a", .num 2)]] (some 1) =
        .error (pdfLimitMessage 1) ∧
      containsLower (pdfLimitMessage 1) "PDF row limit exceeded" = true) ∧
    (∃ lines, createPdfStreamRun [[("a", .num 1)]] (some 1) = .ok lines) :=
  ⟨(createPdfStream_rowLimit [[("a", .num 1)], [("a", .num 2)]] 1).1 (by decide),
   (createPdfStream_rowLimit [[("a", .num 1)]] 1).2 (by decide)⟩

/-! ### Partitioner theorems (C1, C2) -/

/-- Closed form of one loop iteration's output range. -/
def mkRange (mn mx cs i : Nat) : ObjectIdRange :=
  ⟨i, toOid (mn + i * cs),
    if mn + i * cs + cs ≤ mx then some (toOid (mn + i * cs + cs)) else none⟩

theorem buildLoop_closed (mn mx cs : Nat) (hcs : 0 < cs) (hmn : mn ≤ mx) :
    ∀ fuel i, buildLoop mn mx cs fuel i =
      (List.range' i (min fuel ((mx - mn) / cs + 1 - i))).map (mkRange mn mx cs)
  | 0, i => by simp [buildLoop]
  | fuel + 1, i => by
    have hdiv : mn + i * cs ≤ mx ↔ i ≤ (mx - mn) / cs := by
      rw [Nat.le_div_iff_mul_le hcs]; omega
    by_cases hT : i ≤ (mx - mn) / cs
    · have hguard : ¬ mx < mn + i * cs := by
        have := hdiv.mpr hT; omega
      have hsub : (mx - mn) / cs + 1 - i = ((mx - mn) / cs - i) + 1 := by omega
      have hsub2 : (mx - mn) / cs + 1 - (i + 1) = (mx - mn) / cs - i := by omega
      have ih := buildLoop_closed mn mx cs hcs hmn fuel (i + 1)
      rw [hsub2] at ih
      simp only [buildLoop, hguard, if_false, ih, hsub, Nat.succ_min_succ, List.range'_succ,
        List.map_cons]
      rfl
    · have hguard : mx < mn + i * cs := by
        by_contra hc
        exact hT (hdiv.mp (by omega))
      have hsub : (mx - mn) / cs + 1 - i = 0 := by omega
      simp [buildLoop, hguard, hsub]

theorem buildObjectIdRanges_closed (mn mx k : Nat) (hmn : mn ≤ mx) (hk : 2 ≤ k) :
    buildObjectIdRanges mn mx k =
      (List.range' 0
          ((mx - mn) / ((mx - mn + 1 + k - 1) / k) + 1)).map
        (mkRange mn mx ((mx - mn + 1 + k - 1) / k)) := by
  have hmax : max 1 k = k := by omega
  have hcs : 0 < (mx - mn + 1 + k - 1) / k := by
    rw [Nat.lt_iff_add_one_le, Nat.le_div_iff_mul_le (by omega)]
    omega
  have hKcs : mx - mn + 1 ≤ k * ((mx - mn + 1 + k - 1) / k) := by
    have hdm := Nat.div_add_mod (mx - mn + 1 + k - 1) k
    have hml : (mx - mn + 1 + k - 1) % k < k := Nat.mod_lt _ (by omega)
    omega
  have hT : (mx - mn) / ((mx - mn + 1 + k - 1) / k) + 1 ≤ k := by
    have := (Nat.div_lt_iff_lt_mul hcs).mpr
      (show mx - mn < k * ((mx - mn + 1 + k - 1) / k) by omega)
    omega
  have hne : ¬ mx < mn := by omega
  have hk1 : ¬ k = 1 := by omega
  simp only [buildObjectIdRanges, hne, if_false, hmax, hk1]
  rw [buildLoop_closed mn mx _ hcs hmn k 0]
  have hmin : k ⊓ ((mx - mn) / ((mx - mn + 1 + k - 1) / k) + 1 - 0) =
      (mx - mn) / ((mx - mn + 1 + k - 1) / k) + 1 := by
    rw [Nat.sub_zero]; exact min_eq_right hT
  rw [hmin]

theorem buildObjectIdRanges_length (mn mx k : Nat) (hmn : mn ≤ mx) (hk : 0 < k) :
    (buildObjectIdRanges mn mx k).length =
      (mx - mn) / ((mx - mn + 1 + k - 1) / k) + 1 := by
  have hne : ¬ mx < mn := by omega
  by_cases hk1 : k = 1
  · subst hk1
    have hcs : (mx - mn + 1 + 1 - 1) / 1 = mx - mn + 1 := by simp
    simp [buildObjectIdRanges, hne, hcs, Nat.div_eq_of_lt (by omega : mx - mn < mx - mn + 1)]
  · rw [buildObjectIdRanges_closed mn mx k hmn (by omega)]
    simp [List.length_range']

theorem chainOk_range (mn mx cs : Nat) (hcs : 0 < cs) (hmn : mn ≤ mx) :
    ∀ (n i : Nat), i + n ≤ (mx - mn) / cs + 1 →
      chainOk ((List.range' i n).map (mkRange mn mx cs)) = true
  | 0, i, _ => rfl
  | 1, i, _ => by simp [List.range'_succ, chainOk]
  | n + 2, i, h => by
    have hstart : mn + (i + 1) * cs ≤ mx := by
      have : (i + 1) ≤ (mx - mn) / cs := by omega
      have := (Nat.le_div_iff_mul_le hcs).mp this
      omega
    have hcond : mn + i * cs + cs ≤ mx := by
      have : mn + (i + 1) * cs = mn + i * cs + cs := by ring
      omega
    have harg : mn + i * cs + cs = mn + (i + 1) * cs := by ring
    have ih := chainOk_range mn mx cs hcs hmn (n + 1) (i + 1) (by omega)
    rw [List.range'_succ, List.map_cons] at ih ⊢
    rw [List.range'_succ, List.map_cons]
    have hhead :
        ((mkRange mn mx cs i).endExclusive == some ((mkRange mn mx cs (i + 1)).startInclusive))
          = true := by
      simp only [mkRange]
      rw [if_pos hcond, harg]
      simp
    show (((mkRange mn mx cs i).endExclusive == some ((mkRange mn mx cs (i + 1)).startInclusive))
        && chainOk (mkRange mn mx cs (i + 1) :: List.map (mkRange mn mx cs)
          (List.range' (i + 1 + 1) n))) = true
    rw [hhead, ih]
    rfl

theorem lastRange_none (mn mx cs : Nat) (hcs : 0 < cs) (hmn : mn ≤ mx) :
    ((List.range' 0 ((mx - mn) / cs + 1)).map (mkRange mn mx cs)).getLast?.map
        ObjectIdRange.endExclusive = some none := by
  rw [List.getLast?_map, List.getLast?_eq_getElem?, List.length_range']
  have hlen : ((mx - mn) / cs + 1) - 1 < (List.range' 0 ((mx - mn) / cs + 1)).length := by
    simp [List.length_range']
  rw [List.getElem?_eq_getElem hlen, List.getElem_range']
  simp only [Option.map_some', Option.some.injEq]
  have hidx : 0 + 1 * ((mx - mn) / cs + 1 - 1) = (mx - mn) / cs := by simp
  rw [hidx]
  have hTend : ¬ mn + (mx - mn) / cs * cs + cs ≤ mx := by
    intro hcon
    have h3 : (mx - mn) / cs + 1 ≤ (mx - mn) / cs := by
      rw [Nat.le_div_iff_mul_le hcs]
      have hexp : ((mx - mn) / cs + 1) * cs = (mx - mn) / cs * cs + cs := by ring
      rw [hexp]
      omega
    omega
  simp only [mkRange]
  rw [if_neg hTend]

theorem headRange_start (mn mx cs : Nat) (h96a : mn < 2 ^ 96) :
    ((List.range' 0 ((mx - mn) / cs + 1)).map (mkRange mn mx cs)).head?.map
        ObjectIdRange.startInclusive = some mn := by
  rw [List.range'_succ, List.map_cons]
  have h0 : mn + 0 * cs = mn := by omega
  simp only [List.head?_cons, Option.map_some', mkRange, toOid, h0, Option.some.injEq]
  exact Nat.mod_eq_of_lt h96a

/-- C2: for all identifiers `min ≤ max < 2^96` and every positive chunk count
`k`, the ranges of `buildObjectIdRanges(min, max, k)` cover `[min, max]` with
no overlap and no gap — the list is non-empty, the first range starts at
`min`, each range's exclusive end equals the next range's inclusive start
(`chainOk`), and the last range's end is open-ended (`none`); when
`max < min` the result is the empty list; when `k = 1` the result is exactly
one open-ended range starting at `min`. -/
theorem buildObjectIdRanges_spec (mn mx k : Nat) (hk : 0 < k) (h96 : mx < 2 ^ 96) :
    (mx < mn → buildObjectIdRanges mn mx k = []) ∧
    (mn ≤ mx → k = 1 → buildObjectIdRanges mn mx k = [⟨0, mn, none⟩]) ∧
    (mn ≤ mx → (buildObjectIdRanges mn mx k).isEmpty = false) ∧
    (mn ≤ mx → (buildObjectIdRanges mn mx k).head?.map ObjectIdRange.startInclusive = some mn) ∧
    (mn ≤ mx → chainOk (buildObjectIdRanges mn mx k) = true) ∧
    (mn ≤ mx → (buildObjectIdRanges mn mx k).getLast?.map ObjectIdRange.endExclusive = some none)
    := by
  refine ⟨fun h => by simp [buildObjectIdRanges, h], ?_, ?_, ?_, ?_, ?_⟩
  all_goals intro hmn
  · intro hk1
    subst hk1
    simp [buildObjectIdRanges, show ¬ mx < mn by omega]
  all_goals
    by_cases hk1 : k = 1
  · subst hk1
    simp [buildObjectIdRanges, show ¬ mx < mn by omega]
  · rw [buildObjectIdRanges_closed mn mx k hmn (by omega)]
    rw [List.range'_succ, List.map_cons]
    simp
  · subst hk1
    simp [buildObjectIdRanges, show ¬ mx < mn by omega, toOid]
  · rw [buildObjectIdRanges_closed mn mx k hmn (by omega)]
    exact headRange_start mn mx _ (by omega)
  · subst hk1
    simp [buildObjectIdRanges, show ¬ mx < mn by omega, chainOk]
  · have hcs : 0 < (mx - mn + 1 + k - 1) / k := by
      rw [Nat.lt_iff_add_one_le, Nat.le_div_iff_mul_le (by omega)]
      omega
    rw [buildObjectIdRanges_closed mn mx k hmn (by omega)]
    exact chainOk_range mn mx _ hcs hmn _ 0 (by omega)
  · subst hk1
    simp [buildObjectIdRanges, show ¬ mx < mn by omega]
  · have hcs : 0 < (mx - mn + 1 + k - 1) / k := by
      rw [Nat.lt_iff_add_one_le, Nat.le_div_iff_mul_le (by omega)]
      omega
    rw [buildObjectIdRanges_closed mn mx k hmn (by omega)]
    exact lastRange_none mn mx _ hcs hmn

/-- C1 (amended): for every reduce run over a non-empty dataset the reported
`chunks` equals the length of `buildObjectIdRanges(min, max, requestedChunks)`
with `requestedChunks = partitionSpec.chunks ?? defaultChunks`, namely
`(max - min) / ⌈span / requestedChunks⌉ + 1` (`span = max - min + 1`) — the
chunk count also falls below `requestedChunks` on small identifier spans; and
no configured partition cap exists: for every bound `cap` a run with
`partitionSpec.chunks = cap + 1` over a span of `cap + 1` identifiers reports
`cap + 1 > cap` chunks. -/
theorem runPartitionedReduceChunks_spec (mn mx : Nat) (pc : Option Nat) (d : Nat)
    (hmn : mn ≤ mx) (hk : 0 < pc.getD d) :
    runPartitionedReduceChunks mn mx pc d =
      (mx - mn) / ((mx - mn + 1 + pc.getD d - 1) / pc.getD d) + 1 ∧
    ∀ cap : Nat, cap < runPartitionedReduceChunks 0 cap (some (cap + 1)) d := by
  constructor
  · exact buildObjectIdRanges_length mn mx (pc.getD d) hmn hk
  · intro cap
    have h := buildObjectIdRanges_length 0 cap (cap + 1) (by omega) (by omega)
    have hcs : (cap - 0 + 1 + (cap + 1) - 1) / (cap + 1) = 1 :=
      Nat.div_eq_of_lt_le (by omega) (by omega)
    rw [hcs] at h
    simp only [Nat.div_one, Nat.sub_zero] at h
    show cap < (buildObjectIdRanges 0 cap ((some (cap + 1)).getD d)).length
    simp only [Option.getD_some]
    omega

/-- C1 counterexample: two non-empty reduce runs with the same
`requestedChunks = 4` (and the repository's default of 8) report 3 and 4
chunks respectively — no value of a supposed `partitionCapMax` makes both
equal `min(4, partitionCapMax)`, since `3 ≠ 4`; and a run with
`partitionSpec.chunks = 10` reports 10 chunks, exceeding the configured
default — the worker applies no cap (`job-processor.ts` line 106 passes the
requested count straight to the partitioner). -/
theorem runPartitionedReduceChunks_counterexample :
    runPartitionedReduceChunks 0 4 (some 4) 8 = 3 ∧
    runPartitionedReduceChunks 0 7 (some 4) 8 = 4 ∧
    runPartitionedReduceChunks 0 9 (some 10) 8 = 10 ∧
    (3 : Nat) ≠ 4 :=
  ⟨rfl, rfl, rfl, by decide⟩

/-- C1 witness: the amended theorem applied to the dataset `[0, 4]` with
`partitionSpec.chunks = 4`. -/
theorem runPartitionedReduceChunks_spec_witness :
    runPartitionedReduceChunks 0 4 (some 4) 8 =
      (4 - 0) / ((4 - 0 + 1 + (some 4).getD 8 - 1) / (some 4).getD 8) + 1 :=
  (runPartitionedReduceChunks_spec 0 4 (some 4) 8 (by decide) (by decide)).1

/-- C2 witness: the theorem applied to the identifier interval
`[0x100, 0x5ff]` with 8 chunks (the repository's own partitioner test
vector). -/
theorem buildObjectIdRanges_spec_witness :
    (1535 < 256 → buildObjectIdRanges 256 1535 8 = []) ∧
    (256 ≤ 1535 → 8 = 1 → buildObjectIdRanges 256 1535 8 = [⟨0, 256, none⟩]) ∧
    (256 ≤ 1535 → (buildObjectIdRanges 256 1535 8).isEmpty = false) ∧
    (256 ≤ 1535 →
      (buildObjectIdRanges 256 1535 8).head?.map ObjectIdRange.startInclusive = some 256) ∧
    (256 ≤ 1535 → chainOk (buildObjectIdRanges 256 1535 8) = true) ∧
    (256 ≤ 1535 →
      (buildObjectIdRanges 256 1535 8).getLast?.map ObjectIdRange.endExclusive = some none) :=
  buildObjectIdRanges_spec 256 1535 8 (by decide) (by decide)

/-! ### Accumulator error theorems (C5, C6) -/

theorem numericFrom_error (v : Option JsValue) (f : String) (e : ReduceError)
    (h : numericFrom v f = .error e) : e = .nonNumericField f := by
  cases v with
  | none => simp [numericFrom] at h
  | some w => cases w <;> simp_all [numericFrom]

theorem mergeMetricValue_error (g : ReduceGroupState) (m : ReduceMetricSpec) (doc : Row)
    (e : ReduceError) (h : mergeMetricValue g m doc = .error e) :
    ∃ f, e = .nonNumericField f := by
  unfold mergeMetricValue at h
  repeat' split at h
  all_goals first
    | exact Except.noConfusion h
    | (simp only [Except.error.injEq] at h
       subst h
       exact ⟨_, numericFrom_error _ _ _ (by assumption)⟩)
    | (dsimp only at h
       repeat' split at h
       all_goals exact Except.noConfusion h)

theorem mergeMetrics_error (doc : Row) :
    ∀ (ms : List ReduceMetricSpec) (g : ReduceGroupState) (e : ReduceError),
      (mergeMetrics doc ms g).2 = some e → ∃ f, e = .nonNumericField f
  | [], g, e, h => by simp [mergeMetrics] at h
  | m :: rest, g, e, h => by
    unfold mergeMetrics at h
    cases hm : mergeMetricValue g m doc with
    | ok g2 =>
      rw [hm] at h
      exact mergeMetrics_error doc rest g2 e h
    | error e1 =>
      rw [hm] at h
      simp at h
      exact h ▸ mergeMetricValue_error g m doc e1 hm

theorem consumeGroup_error (spec : ReduceSpec) (doc : Row) (g : ReduceGroupState)
    (e : ReduceError) (h : (consumeGroup spec doc g).2 = some e) :
    ∃ f, e = .nonNumericField f := by
  unfold consumeGroup at h
  cases h1 : numericFrom (mapGet doc inputCountField) inputCountField with
  | ok q =>
    rw [h1] at h
    exact mergeMetrics_error doc spec.metrics _ e h
  | error e1 =>
    rw [h1] at h
    simp at h
    exact h ▸ ⟨_, numericFrom_error _ _ _ h1⟩

/-- C5: for every accumulator created with a `maxGroups` bound, every state,
and every incoming partial: `consume` raises `ReduceCardinalityExceeded`
exactly when the partial's group key is not already present and the number of
stored groups has reached `maxGroups`; consuming a partial for an existing
group never raises this error; and the failing consume leaves the stored state
unchanged. -/
theorem consume_maxGroups (spec : ReduceSpec) (mg : Nat) (st : AccState) (doc : Row) :
    ((consumeSt spec (some mg) st doc).2 = some (.cardinalityExceeded mg) ↔
      mapGet st (groupKeyOf spec doc) = none ∧ mg ≤ st.length) ∧
    (∀ g, mapGet st (groupKeyOf spec doc) = some g →
      ∀ n, (consumeSt spec (some mg) st doc).2 ≠ some (.cardinalityExceeded n)) ∧
    (mapGet st (groupKeyOf spec doc) = none → mg ≤ st.length →
      (consumeSt spec (some mg) st doc).1 = st) := by
  have hkey : groupKeyOf spec doc =
      stringify (.obj (decodeGroup spec.groupBy (mapGet doc "_id"))) := rfl
  cases hget : mapGet st (groupKeyOf spec doc) with
  | some g =>
    rw [hkey] at hget
    have hrun : consumeSt spec (some mg) st doc =
        (mapSet st (stringify (.obj (decodeGroup spec.groupBy (mapGet doc "_id"))))
          (consumeGroup spec doc g).1, (consumeGroup spec doc g).2) := by
      simp only [consumeSt]
      rw [hget]
    have hnocard : ∀ n, (consumeGroup spec doc g).2 ≠ some (.cardinalityExceeded n) := by
      intro n hcon
      obtain ⟨f, hf⟩ := consumeGroup_error spec doc g _ hcon
      exact ReduceError.noConfusion hf
    refine ⟨?_, ?_, ?_⟩
    · rw [hrun]
      constructor
      · intro hcon
        exact absurd hcon (hnocard mg)
      · rintro ⟨hnone, -⟩
        exact Option.noConfusion hnone
    · intro g2 _ n
      rw [hrun]
      exact hnocard n
    · intro hnone
      exact Option.noConfusion hnone
  | none =>
    rw [hkey] at hget
    by_cases hlen : mg ≤ st.length
    · have hrun : consumeSt spec (some mg) st doc =
          (st, some (.cardinalityExceeded mg)) := by
        simp only [consumeSt]
        rw [hget]
        simp [hlen]
      refine ⟨?_, ?_, ?_⟩
      · rw [hrun]
        constructor
        · intro _
          exact ⟨rfl, hlen⟩
        · intro _
          rfl
      · intro g2 hcon
        exact Option.noConfusion hcon
      · intro _ _
        rw [hrun]
    · have hrun : consumeSt spec (some mg) st doc =
          (st ++ [(stringify (.obj (decodeGroup spec.groupBy (mapGet doc "_id"))),
            (consumeGroup spec doc
              (freshGroup (decodeGroup spec.groupBy (mapGet doc "_id")))).1)],
            (consumeGroup spec doc
              (freshGroup (decodeGroup spec.groupBy (mapGet doc "_id")))).2) := by
        simp only [consumeSt]
        rw [hget]
        simp [hlen]
      refine ⟨?_, ?_, ?_⟩
      · rw [hrun]
        constructor
        · intro hcon
          obtain ⟨f, hf⟩ := consumeGroup_error spec doc _ _ hcon
          exact ReduceError.noConfusion hf
        · rintro ⟨-, hcon⟩
          exact absurd hcon hlen
      · intro g2 hcon
        exact Option.noConfusion hcon
      · intro _ hcon
        exact absurd hcon hlen

/-- C5 witness: the theorem applied to an accumulator with `maxGroups = 1`
already holding the group `us` and a partial for the new group `br` — the
consume reports the cardinality error and leaves the state unchanged. -/
theorem consume_maxGroups_witness :
    (consumeSt { groupBy := ["region"], metrics := [⟨.count, none, "orders"⟩] } (some 1)
        [("\x7b\"region\":\"us\"\x7d",
          { group := [("region", .str "us")], values := [("orders", .num 1)],
            averages := [], inputCount := 1 })]
        [("_id", .obj [("region", .str "br")]), ("orders", .num 1),
          ("__input_count", .num 1)]).2 = some (.cardinalityExceeded 1) ∧
    (consumeSt { groupBy := ["region"], metrics := [⟨.count, none, "orders"⟩] } (some 1)
        [("\x7b\"region\":\"us\"\x7d",
          { group := [("region", .str "us")], values := [("orders", .num 1)],
            averages := [], inputCount := 1 })]
        [("_id", .obj [("region", .str "br")]), ("orders", .num 1),
          ("__input_count", .num 1)]).1 =
      [("\x7b\"region\":\"us\"\x7d",
        { group := [("region", .str "us")], values := [("orders", .num 1)],
          averages := [], inputCount := 1 })] :=
  ⟨(consume_maxGroups { groupBy := ["region"], metrics := [⟨.count, none, "orders"⟩] } 1
      [("\x7b\"region\":\"us\"\x7d",
        { group := [("region", .str "us")], values := [("orders", .num 1)],
          averages := [], inputCount := 1 })]
      [("_id", .obj [("region", .str "br")]), ("orders", .num 1),
        ("__input_count", .num 1)]).1.mpr ⟨rfl, by decide⟩,
   (consume_maxGroups { groupBy := ["region"], metrics := [⟨.count, none, "orders"⟩] } 1
      [("\x7b\"region\":\"us\"\x7d",
        { group := [("region", .str "us")], values := [("orders", .num 1)],
          averages := [], inputCount := 1 })]
      [("_id", .obj [("region", .str "br")]), ("orders", .num 1),
        ("__input_count", .num 1)]).2.2 rfl (by decide)⟩

/-- C6 (amended): for every `min`/`max` metric, the running value is seeded
with the first partial value — `current ?? null`, so a null first value is
stored as null; a subsequent null (or absent) partial value is ignored; and a
stored value with no comparable projection (null in particular) is never
replaced, so a partial sequence whose first value is null yields null even if
a later non-null value arrives. -/
theorem mergeMetricValue_minmax (g : ReduceGroupState) (m : ReduceMetricSpec) (doc : Row)
    (hop : m.op = .min ∨ m.op = .max) :
    (mapGet g.values m.as = none →
      mergeMetricValue g m doc =
        .ok { g with values := mapSet g.values m.as ((mapGet doc m.as).getD .null) }) ∧
    (∀ v, mapGet g.values m.as = some v →
      (mapGet doc m.as = none ∨ mapGet doc m.as = some .null) →
      mergeMetricValue g m doc = .ok g) ∧
    (∀ v, mapGet g.values m.as = some v → pickComparable v = none →
      mergeMetricValue g m doc = .ok g) := by
  rcases hop with hop | hop <;>
  · refine ⟨?_, ?_, ?_⟩
    · intro hnone
      simp only [mergeMetricValue, hop]
      rw [hnone]
    · intro v hv hcur
      simp only [mergeMetricValue, hop]
      rw [hv]
      rcases hcur with hcur | hcur <;> rw [hcur]
    · intro v hv hpc
      simp only [mergeMetricValue, hop]
      rw [hv]
      dsimp only
      rw [hpc]
      cases hcur : mapGet doc m.as with
      | none => rfl
      | some cur => cases cur <;> rfl

/-- C6 counterexample: a `min` metric fed the partial values `null` then `5`
for the same group finalizes to `null`, not `5` — the null seed is stored
(`current ?? null`, reduce-engine.ts line 211) and the null-comparable guard
(line 222) then skips every later comparison, so the claimed "seed with the
first non-null value" fails. -/
theorem minmax_null_counterexample :
    (consumeAll { groupBy := ["region"], metrics := [⟨.min, some "amount", "minA"⟩] } none []
        [[("_id", .obj [("region", .str "us")]), ("minA", JsValue.null), ("__input_count", .num 1)],
         [("_id", .obj [("region", .str "us")]), ("minA", .num 5), ("__input_count", .num 1)]]).map
      (fun st =>
        (toReduceSummary codePointLe
          { groupBy := ["region"], metrics := [⟨.min, some "amount", "minA"⟩] } st).rows) =
      .ok [[("region", .str "us"), ("minA", JsValue.null)]] ∧
    JsValue.null ≠ JsValue.num 5 :=
  ⟨rfl, fun h => JsValue.noConfusion h⟩

/-- C6 witness: the amended theorem applied to a group whose stored `min` is
null and an incoming value 5 (ignored), and to a fresh group seeded with an
incoming null. -/
theorem mergeMetricValue_minmax_witness :
    mergeMetricValue
        { group := [("region", .str "us")], values := [("minA", JsValue.null)],
          averages := [], inputCount := 1 }
        ⟨.min, some "amount", "minA"⟩ [("minA", .num 5)] =
      .ok { group := [("region", .str "us")], values := [("minA", JsValue.null)],
            averages := [], inputCount := 1 } ∧
    mergeMetricValue
        { group := [("region", .str "us")], values := [], averages := [], inputCount := 0 }
        ⟨.min, some "amount", "minA"⟩ [("minA", JsValue.null)] =
      .ok { group := [("region", .str "us")], values := [("minA", JsValue.null)],
            averages := [], inputCount := 0 } :=
  ⟨(mergeMetricValue_minmax
      { group := [("region", .str "us")], values := [("minA", JsValue.null)],
        averages := [], inputCount := 1 }
      ⟨.min, some "amount", "minA"⟩ [("minA", .num 5)] (Or.inl rfl)).2.2 JsValue.null rfl rfl,
   (mergeMetricValue_minmax
      { group := [("region", .str "us")], values := [], averages := [], inputCount := 0 }
      ⟨.min, some "amount", "minA"⟩ [("minA", JsValue.null)] (Or.inl rfl)).1 rfl⟩

/-! ### Map lemmas for the accumulator state -/

theorem mapGet_eq_none {α : Type} (m : List (String × α)) (k : String) :
    mapGet m k = none ↔ k ∉ m.map Prod.fst := by
  induction m with
  | nil => simp [mapGet]
  | cons e rest ih =>
    simp only [mapGet, List.map_cons, List.mem_cons]
    by_cases h : e.1 = k
    · rw [if_pos h]
      constructor
      · intro hc
        exact Option.noConfusion hc
      · intro hc
        exact absurd (Or.inl h.symm) hc
    · rw [if_neg h, ih]
      constructor
      · intro hc hor
        rcases hor with h1 | h1
        · exact h h1.symm
        · exact hc h1
      · intro hc h1
        exact hc (Or.inr h1)

theorem mapGet_some_mem_pair {α : Type} {m : List (String × α)} {k : String} {v : α}
    (h : mapGet m k = some v) : (k, v) ∈ m := by
  induction m with
  | nil => simp [mapGet] at h
  | cons e rest ih =>
    by_cases he : e.1 = k
    · rw [mapGet, if_pos he] at h
      have : e = (k, v) := by
        obtain ⟨e1, e2⟩ := e
        cases h
        cases he
        rfl
      exact this ▸ List.mem_cons_self e rest
    · rw [mapGet, if_neg he] at h
      exact List.mem_cons_of_mem e (ih h)

theorem mapSet_keys_mem {α : Type} (m : List (String × α)) (k : String) (v : α)
    (h : k ∈ m.map Prod.fst) : (mapSet m k v).map Prod.fst = m.map Prod.fst := by
  induction m with
  | nil => simp at h
  | cons e rest ih =>
    by_cases he : e.1 = k
    · simp [mapSet, he]
    · have hk : k ∈ rest.map Prod.fst := by
        rw [List.map_cons] at h
        rcases List.mem_cons.mp h with hh | hh
        · exact absurd hh.symm he
        · exact hh
      simp [mapSet, he, ih hk]

theorem mapSet_keys_not_mem {α : Type} (m : List (String × α)) (k : String) (v : α)
    (h : k ∉ m.map Prod.fst) : (mapSet m k v).map Prod.fst = m.map Prod.fst ++ [k] := by
  induction m with
  | nil => simp [mapSet]
  | cons e rest ih =>
    have he : e.1 ≠ k := by
      intro hc
      exact h (by simp [hc])
    have hk : k ∉ rest.map Prod.fst := by
      intro hc
      exact h (by simp [hc])
    simp [mapSet, he, ih hk]

theorem mapSet_mem_entries {α : Type} (m : List (String × α)) (k : String) (v : α) :
    ∀ e ∈ mapSet m k v, e = (k, v) ∨ e ∈ m := by
  induction m with
  | nil =>
    intro e he
    rw [mapSet] at he
    exact Or.inl (List.mem_singleton.mp he)
  | cons e0 rest ih =>
    intro e he
    by_cases h0 : e0.1 = k
    · rw [mapSet, if_pos h0] at he
      rcases List.mem_cons.mp he with hh | hh
      · exact Or.inl hh
      · exact Or.inr (List.mem_cons_of_mem e0 hh)
    · rw [mapSet, if_neg h0] at he
      rcases List.mem_cons.mp he with hh | hh
      · exact Or.inr (hh ▸ List.mem_cons_self e0 rest)
      · rcases ih e hh with hh2 | hh2
        · exact Or.inl hh2
        · exact Or.inr (List.mem_cons_of_mem e0 hh2)

theorem mapGet_mapSet_self {α : Type} (m : List (String × α)) (k : String) (v : α) :
    mapGet (mapSet m k v) k = some v := by
  induction m with
  | nil => simp [mapSet, mapGet]
  | cons e rest ih =>
    by_cases he : e.1 = k
    · rw [mapSet, if_pos he, mapGet, if_pos rfl]
    · rw [mapSet, if_neg he, mapGet, if_neg he, ih]

theorem mapGet_mapSet_ne {α : Type} (m : List (String × α)) (k k' : String) (v : α)
    (h : k' ≠ k) : mapGet (mapSet m k v) k' = mapGet m k' := by
  have hkk : ¬ k = k' := fun hc => h hc.symm
  induction m with
  | nil => simp [mapSet, mapGet, hkk]
  | cons e rest ih =>
    by_cases he : e.1 = k
    · have hek : ¬ e.1 = k' := fun hc => h (he.symm.trans hc).symm
      rw [mapSet, if_pos he, mapGet, if_neg hkk, mapGet, if_neg hek]
    · by_cases he' : e.1 = k'
      · rw [mapSet, if_neg he, mapGet, if_pos he', mapGet, if_pos he']
      · rw [mapSet, if_neg he, mapGet, if_neg he', mapGet, if_neg he', ih]

theorem mapSet_sum {α : Type} (f : α → Rat) (m : List (String × α)) (k : String) (v g : α)
    (h : mapGet m k = some g) :
    ((mapSet m k v).map (fun e => f e.2)).sum =
      (m.map (fun e => f e.2)).sum - f g + f v := by
  induction m with
  | nil => simp [mapGet] at h
  | cons e rest ih =>
    by_cases he : e.1 = k
    · rw [mapGet, if_pos he] at h
      have hg : e.2 = g := Option.some.inj h
      rw [mapSet, if_pos he]
      simp [hg]
      ring
    · rw [mapGet, if_neg he] at h
      rw [mapSet, if_neg he]
      simp [ih h]
      ring

/-! ### Consume invariants -/

theorem mergeMetricValue_preserves (g : ReduceGroupState) (m : ReduceMetricSpec) (doc : Row)
    (g2 : ReduceGroupState) (h : mergeMetricValue g m doc = .ok g2) :
    g2.group = g.group ∧ g2.inputCount = g.inputCount := by
  unfold mergeMetricValue at h
  repeat' split at h
  all_goals first
    | exact Except.noConfusion h
    | (simp only [Except.ok.injEq] at h
       subst h
       exact ⟨rfl, rfl⟩)
    | (dsimp only at h
       repeat' split at h
       all_goals first
         | exact Except.noConfusion h
         | (simp only [Except.ok.injEq] at h
            subst h
            exact ⟨rfl, rfl⟩))

theorem mergeMetrics_preserves (doc : Row) :
    ∀ (ms : List ReduceMetricSpec) (g : ReduceGroupState),
      (mergeMetrics doc ms g).1.group = g.group ∧
      (mergeMetrics doc ms g).1.inputCount = g.inputCount
  | [], g => ⟨rfl, rfl⟩
  | m :: rest, g => by
    unfold mergeMetrics
    cases hm : mergeMetricValue g m doc with
    | ok g2 =>
      have hp := mergeMetricValue_preserves g m doc g2 hm
      have ih := mergeMetrics_preserves doc rest g2
      exact ⟨ih.1.trans hp.1, ih.2.trans hp.2⟩
    | error e => exact ⟨rfl, rfl⟩

theorem consumeGroup_ok_fields (spec : ReduceSpec) (doc : Row) (g : ReduceGroupState)
    (h : (consumeGroup spec doc g).2 = none) :
    (consumeGroup spec doc g).1.group = g.group ∧
    (consumeGroup spec doc g).1.inputCount = g.inputCount + inputCountOf doc := by
  unfold consumeGroup at h ⊢
  cases h1 : numericFrom (mapGet doc inputCountField) inputCountField with
  | error e =>
    rw [h1] at h
    exact Option.noConfusion h
  | ok q =>
    dsimp only
    have hic : inputCountOf doc = q := by
      unfold inputCountOf
      rw [h1]
      rfl
    have hp := mergeMetrics_preserves doc spec.metrics
      { g with inputCount := g.inputCount + q }
    exact ⟨hp.1, by rw [hp.2, hic]⟩

/-- The invariant maintained by the accumulator state over the consumed
partials: unique keys, the key set equals the consumed partials' group-key
set, every entry's key is the canonical JSON of its group, and the stored
`inputCount`s sum to the partials' `__input_count` total. -/
def StateInv (spec : ReduceSpec) (consumed : List Row) (st : AccState) : Prop :=
  (st.map Prod.fst).Nodup ∧
  (st.map Prod.fst).toFinset = (consumed.map (groupKeyOf spec)).toFinset ∧
  (∀ e ∈ st, e.1 = stringify (.obj e.2.group)) ∧
  (st.map (fun e => e.2.inputCount)).sum = (consumed.map inputCountOf).sum

theorem consumeSt_inv (spec : ReduceSpec) (mg : Option Nat) (consumed : List Row)
    (st st' : AccState) (doc : Row) (hinv : StateInv spec consumed st)
    (h : consumeSt spec mg st doc = (st', none)) :
    StateInv spec (consumed ++ [doc]) st' := by
  obtain ⟨h1, h2, h3, h4⟩ := hinv
  have hkeyF : (((consumed ++ [doc]).map (groupKeyOf spec)).toFinset) =
      ((consumed.map (groupKeyOf spec)).toFinset) ∪
        {stringify (.obj (decodeGroup spec.groupBy (mapGet doc "_id")))} := by
    simp [List.map_append, groupKeyOf]
  cases hget : mapGet st (stringify (.obj (decodeGroup spec.groupBy (mapGet doc "_id")))) with
  | some g =>
    have hrun : consumeSt spec mg st doc =
        (mapSet st (stringify (.obj (decodeGroup spec.groupBy (mapGet doc "_id"))))
          (consumeGroup spec doc g).1, (consumeGroup spec doc g).2) := by
      simp only [consumeSt]
      rw [hget]
    rw [hrun] at h
    have hst : st' = mapSet st (stringify (.obj (decodeGroup spec.groupBy (mapGet doc "_id"))))
        (consumeGroup spec doc g).1 := (congrArg Prod.fst h).symm
    have herr : (consumeGroup spec doc g).2 = none := congrArg Prod.snd h
    have hfields := consumeGroup_ok_fields spec doc g herr
    have hpair := mapGet_some_mem_pair hget
    have hkmem : stringify (.obj (decodeGroup spec.groupBy (mapGet doc "_id"))) ∈
        st.map Prod.fst :=
      List.mem_map.mpr ⟨_, hpair, rfl⟩
    have hkeys := mapSet_keys_mem st
      (stringify (.obj (decodeGroup spec.groupBy (mapGet doc "_id"))))
      (consumeGroup spec doc g).1 hkmem
    subst hst
    refine ⟨?_, ?_, ?_, ?_⟩
    · rw [hkeys]
      exact h1
    · rw [hkeys, hkeyF, h2]
      have : stringify (.obj (decodeGroup spec.groupBy (mapGet doc "_id"))) ∈
          (consumed.map (groupKeyOf spec)).toFinset := by
        rw [← h2]
        exact List.mem_toFinset.mpr hkmem
      rw [Finset.union_eq_left.mpr (Finset.singleton_subset_iff.mpr this)]
    · intro e he
      rcases mapSet_mem_entries st _ _ e he with heq | hmem
      · subst heq
        have := h3 _ hpair
        simp only at this ⊢
        rw [this, hfields.1]
      · exact h3 e hmem
    · rw [mapSet_sum ReduceGroupState.inputCount st _ _ g hget, hfields.2, h4]
      simp [List.map_append]
      ring
  | none =>
    have hsucc : ∀ (hrun : consumeSt spec mg st doc =
        (st ++ [(stringify (.obj (decodeGroup spec.groupBy (mapGet doc "_id"))),
          (consumeGroup spec doc
            (freshGroup (decodeGroup spec.groupBy (mapGet doc "_id")))).1)],
          (consumeGroup spec doc
            (freshGroup (decodeGroup spec.groupBy (mapGet doc "_id")))).2)),
        StateInv spec (consumed ++ [doc]) st' := by
      intro hrun
      rw [hrun] at h
      have hst : st' = st ++ [(stringify (.obj (decodeGroup spec.groupBy (mapGet doc "_id"))),
          (consumeGroup spec doc
            (freshGroup (decodeGroup spec.groupBy (mapGet doc "_id")))).1)] :=
        (congrArg Prod.fst h).symm
      have herr : (consumeGroup spec doc
          (freshGroup (decodeGroup spec.groupBy (mapGet doc "_id")))).2 = none :=
        congrArg Prod.snd h
      have hfields := consumeGroup_ok_fields spec doc
        (freshGroup (decodeGroup spec.groupBy (mapGet doc "_id"))) herr
      have hkn : stringify (.obj (decodeGroup spec.groupBy (mapGet doc "_id"))) ∉
          st.map Prod.fst :=
        (mapGet_eq_none st _).mp hget
      subst hst
      refine ⟨?_, ?_, ?_, ?_⟩
      · simp only [List.map_append, List.map_cons, List.map_nil]
        rw [List.nodup_append]
        exact ⟨h1, List.nodup_singleton _, by simpa using fun hc => hkn hc⟩
      · rw [hkeyF, ← h2]
        simp [List.map_append]
      · intro e he
        rcases List.mem_append.mp he with hmem | hmem
        · exact h3 e hmem
        · have heq := List.mem_singleton.mp hmem
          subst heq
          simp only
          rw [hfields.1]
          rfl
      · rw [List.map_append, List.sum_append, h4]
        simp only [List.map_cons, List.map_nil, List.sum_cons, List.sum_nil]
        rw [hfields.2]
        simp only [freshGroup]
        simp [List.map_append]
    cases mg with
    | none =>
      apply hsucc
      simp only [consumeSt]
      rw [hget]
    | some mgv =>
      by_cases hlen : mgv ≤ st.length
      · have hrun : consumeSt spec (some mgv) st doc =
            (st, some (.cardinalityExceeded mgv)) := by
          simp only [consumeSt]
          rw [hget]
          simp [hlen]
        rw [hrun] at h
        exact Option.noConfusion (congrArg Prod.snd h)
      · apply hsucc
        simp only [consumeSt]
        rw [hget]
        simp [hlen]

theorem consumeAll_inv (spec : ReduceSpec) (mg : Option Nat) :
    ∀ (rows : List Row) (consumed : List Row) (st st' : AccState),
      StateInv spec consumed st → consumeAll spec mg st rows = .ok st' →
      StateInv spec (consumed ++ rows) st'
  | [], consumed, st, st', hinv, h => by
    simp only [consumeAll, Except.ok.injEq] at h
    subst h
    simpa using hinv
  | doc :: rest, consumed, st, st', hinv, h => by
    unfold consumeAll at h
    cases hc : consumeSt spec mg st doc with
    | mk st2 err =>
      rw [hc] at h
      cases err with
      | none =>
        have hinv2 := consumeSt_inv spec mg consumed st st2 doc hinv hc
        have hrec := consumeAll_inv spec mg rest (consumed ++ [doc]) st2 st' hinv2 h
        simpa [List.append_assoc] using hrec
      | some e => exact Except.noConfusion h

/-! ### Alias uniqueness from validation -/

theorem validateMetrics_nodup :
    ∀ (ms : List ReduceMetricSpec) (seen : List String),
      validateMetrics seen ms = .ok () →
      (ms.map (fun m => m.as)).Nodup ∧ ∀ a ∈ ms.map (fun m => m.as), a ∉ seen
  | [], seen, _ => ⟨List.nodup_nil, by simp⟩
  | m :: rest, seen, h => by
    unfold validateMetrics at h
    by_cases hid : isIdentName m.as
    · rw [if_neg (by simp [hid])] at h
      by_cases hseen : m.as ∈ seen
      · rw [if_pos hseen] at h
        exact Except.noConfusion h
      · rw [if_neg hseen] at h
        have hrec : validateMetrics (seen ++ [m.as]) rest = .ok () := by
          split at h
          · exact h
          · exact Except.noConfusion h
          · split at h
            · exact h
            · exact Except.noConfusion h
        obtain ⟨hnd, hni⟩ := validateMetrics_nodup rest (seen ++ [m.as]) hrec
        have hm_notin : m.as ∉ rest.map (fun m => m.as) := by
          intro hc
          exact hni m.as hc (List.mem_append.mpr (Or.inr (List.mem_singleton.mpr rfl)))
        refine ⟨List.nodup_cons.mpr ⟨hm_notin, hnd⟩, ?_⟩
        intro a ha
        rcases List.mem_cons.mp ha with heq | hmem
        · exact heq ▸ hseen
        · intro hc
          exact hni a hmem (List.mem_append.mpr (Or.inl hc))
    · rw [if_pos (by simp [hid])] at h
      exact Except.noConfusion h

theorem validateReduceSpec_nodup (spec : ReduceSpec)
    (h : validateReduceSpec spec = .ok ()) :
    (spec.metrics.map (fun m => m.as)).Nodup := by
  unfold validateReduceSpec at h
  split at h
  · exact Except.noConfusion h
  · split at h
    · exact Except.noConfusion h
    · exact (validateMetrics_nodup spec.metrics [] h).1

/-! ### Output-row lookups -/

theorem outputStep_get_ne (g : ReduceGroupState) (acc : Row) (m : ReduceMetricSpec)
    (a : String) (h : m.as ≠ a) : mapGet (outputStep g acc m) a = mapGet acc a := by
  unfold outputStep
  split <;> exact mapGet_mapSet_ne acc m.as a _ (fun hc => h hc.symm)

theorem foldl_outputStep_not_written (g : ReduceGroupState) :
    ∀ (ms : List ReduceMetricSpec) (acc : Row) (a : String),
      (∀ m ∈ ms, m.as ≠ a) → mapGet (ms.foldl (outputStep g) acc) a = mapGet acc a
  | [], _, _, _ => rfl
  | m :: rest, acc, a, h => by
    rw [List.foldl_cons]
    rw [foldl_outputStep_not_written g rest _ a
      (fun m' hm' => h m' (List.mem_cons_of_mem m hm'))]
    exact outputStep_get_ne g acc m a (h m (List.mem_cons_self m rest))

theorem foldl_outputStep_avg (g : ReduceGroupState) :
    ∀ (ms : List ReduceMetricSpec) (acc : Row) (m : ReduceMetricSpec),
      (ms.map (fun x => x.as)).Nodup → m ∈ ms → m.op = .avg →
      mapGet (ms.foldl (outputStep g) acc) m.as = some (avgOutput g m.as)
  | [], _, m, _, hm, _ => absurd hm (List.not_mem_nil m)
  | m' :: rest, acc, m, hnd, hm, hop => by
    rw [List.foldl_cons]
    rcases List.mem_cons.mp hm with heq | hmem
    · subst heq
      have hnotin : ∀ x ∈ rest, x.as ≠ m.as := by
        intro x hx hcon
        have hmm : m.as ∈ rest.map (fun y => y.as) := by
          rw [← hcon]
          exact List.mem_map_of_mem (fun y => y.as) hx
        exact (List.nodup_cons.mp hnd).1 hmm
      rw [foldl_outputStep_not_written g rest _ m.as hnotin]
      unfold outputStep
      rw [hop]
      exact mapGet_mapSet_self acc m.as _
    · exact foldl_outputStep_avg g rest (outputStep g acc m') m
        (List.nodup_cons.mp hnd).2 hmem hop

/-! ### Finalize key facts -/

theorem finalize_keys_facts (lc : String → String → Bool) (spec : ReduceSpec)
    (rows : List Row) (st : AccState) (hinv : StateInv spec rows st) :
    ((finalizeEntries lc st).map (fun e => stringify (.obj e.2.group))) =
      (finalizeEntries lc st).map Prod.fst ∧
    ((finalizeEntries lc st).map Prod.fst).Nodup ∧
    ((finalizeEntries lc st).map Prod.fst).toFinset =
      (rows.map (groupKeyOf spec)).toFinset := by
  obtain ⟨h1, h2, h3, -⟩ := hinv
  have hperm : (finalizeEntries lc st).Perm st := List.perm_insertionSort (keyLeBy lc) st
  have hfst : ((finalizeEntries lc st).map Prod.fst).Perm (st.map Prod.fst) :=
    hperm.map Prod.fst
  refine ⟨?_, hfst.nodup_iff.mpr h1, ?_⟩
  · apply List.map_congr_left
    intro e he
    exact (h3 e (hperm.mem_iff.mp he)).symm
  · have hts : ((finalizeEntries lc st).map Prod.fst).toFinset =
        (st.map Prod.fst).toFinset := by
      ext a
      simp only [List.mem_toFinset]
      exact hfst.mem_iff
    rw [hts, h2]

/-- C9 (amended): the finalize order is the host's `localeCompare` collation
of the canonical-JSON group keys, not necessarily their ascending code-point
order.  For every total, transitive collation `lc`, every valid reduce spec
and every sequence of consumed partial rows, `finalize` emits exactly one
output row per distinct group — the finalized entries' canonical-JSON group
keys are duplicate-free, are exactly the set of consumed group keys, and are
ascending under `lc`, so the output is deterministic for a fixed host
collation — and returns `rowsIn` equal to the sum of the partials'
`__input_count` values and `rowsOut` equal to the number of distinct groups;
each `avg` metric is output as `sum/count`, or null when its count is 0. -/
theorem toReduceSummary_spec (lc : String → String → Bool)
    (htot : ∀ a b, lc a b = true ∨ lc b a = true)
    (htrans : ∀ a b c, lc a b = true → lc b c = true → lc a c = true)
    (spec : ReduceSpec) (mg : Option Nat) (rows : List Row)
    (st : AccState) (hv : validateReduceSpec spec = .ok ())
    (hok : consumeAll spec mg [] rows = .ok st) :
    (toReduceSummary lc spec st).rowsOut = ((rows.map (groupKeyOf spec)).toFinset).card ∧
    ((finalizeEntries lc st).map (fun e => stringify (.obj e.2.group))).Nodup ∧
    ((finalizeEntries lc st).map (fun e => stringify (.obj e.2.group))).toFinset =
      (rows.map (groupKeyOf spec)).toFinset ∧
    List.Sorted (fun a b => lc a b = true)
      ((finalizeEntries lc st).map (fun e => stringify (.obj e.2.group))) ∧
    (toReduceSummary lc spec st).rowsIn = (rows.map inputCountOf).sum ∧
    (∀ m ∈ spec.metrics, m.op = .avg → ∀ e ∈ finalizeEntries lc st,
      mapGet (buildOutputRow spec e.2) m.as = some (avgOutput e.2 m.as)) := by
  have hinv0 : StateInv spec [] [] := ⟨List.nodup_nil, by simp, by simp, by simp⟩
  have hinv := consumeAll_inv spec mg rows [] [] st hinv0 hok
  rw [List.nil_append] at hinv
  obtain ⟨hmapeq, hnd, hfin⟩ := finalize_keys_facts lc spec rows st hinv
  have hsorted : List.Sorted (fun a b => lc a b = true)
      ((finalizeEntries lc st).map Prod.fst) := by
    haveI : IsTotal (String × ReduceGroupState) (keyLeBy lc) := ⟨fun a b => htot a.1 b.1⟩
    haveI : IsTrans (String × ReduceGroupState) (keyLeBy lc) :=
      ⟨fun a b c => htrans a.1 b.1 c.1⟩
    have hs : List.Sorted (keyLeBy lc) (finalizeEntries lc st) :=
      List.sorted_insertionSort (keyLeBy lc) st
    exact List.pairwise_map.mpr hs
  refine ⟨?_, by rw [hmapeq]; exact hnd, by rw [hmapeq]; exact hfin,
    by rw [hmapeq]; exact hsorted, ?_, ?_⟩
  · show (finalizeEntries lc st).length = _
    rw [← hfin, List.toFinset_card_of_nodup hnd, List.length_map]
  · obtain ⟨-, -, -, h4⟩ := hinv
    show ((finalizeEntries lc st).map (fun e => e.2.inputCount)).sum = _
    have hp : ((finalizeEntries lc st).map (fun e => e.2.inputCount)).Perm
        (st.map (fun e => e.2.inputCount)) :=
      (List.perm_insertionSort (keyLeBy lc) st).map _
    exact hp.sum_eq.trans h4
  · intro m hm hop e _
    exact foldl_outputStep_avg e.2 spec.metrics e.2.group m
      (validateReduceSpec_nodup spec hv) hm hop

/-- Reduce spec for the C9 counterexample: group by `region`, one `count`
metric. -/
def mixedCaseSpec : ReduceSpec :=
  { groupBy := ["region"], metrics := [⟨.count, none, "orders"⟩] }

/-- Two partials for the C9 counterexample whose group values differ only in
letter case, `a` and `B`. -/
def mixedCaseRows : List Row :=
  [[("_id", .obj [("region", .str "a")]), ("orders", .num 1), ("__input_count", .num 1)],
   [("_id", .obj [("region", .str "B")]), ("orders", .num 1), ("__input_count", .num 1)]]

/-- The accumulator state after consuming `mixedCaseRows`. -/
def mixedCaseState : AccState :=
  [("\x7b\"region\":\"a\"\x7d",
    { group := [("region", .str "a")], values := [("orders", .num 1)], averages := [],
      inputCount := 1 }),
   ("\x7b\"region\":\"B\"\x7d",
    { group := [("region", .str "B")], values := [("orders", .num 1)], averages := [],
      inputCount := 1 })]

/-- C9 counterexample: under the host's default-locale collation — which
`localeCompare` uses at reduce-engine.ts line 240, and which orders base
letters case-insensitively, so `"a"` precedes `"B"` — `finalize` on two
reachable partials emits the group key for region `a` before the one for
region `B`, and that emitted key sequence is not ascending in code-point
order of the canonical-JSON keys (by code point `"B"` precedes `"a"`); the
claimed ascending canonical-JSON ordering is therefore not the program's
output order. -/
theorem toReduceSummary_ordering_counterexample :
    consumeAll mixedCaseSpec none [] mixedCaseRows = .ok mixedCaseState ∧
    ((finalizeEntries icuLe mixedCaseState).map (fun e => stringify (.obj e.2.group))) =
      ["\x7b\"region\":\"a\"\x7d", "\x7b\"region\":\"B\"\x7d"] ∧
    ¬ List.Sorted (fun a b => (a : String) ≤ b)
      ((finalizeEntries icuLe mixedCaseState).map (fun e => stringify (.obj e.2.group))) := by
  have hlist : ((finalizeEntries icuLe mixedCaseState).map
      (fun e => stringify (.obj e.2.group))) =
      ["\x7b\"region\":\"a\"\x7d", "\x7b\"region\":\"B\"\x7d"] := by with_unfolding_all rfl
  refine ⟨by with_unfolding_all rfl, hlist, ?_⟩
  intro h
  rw [hlist] at h
  exact absurd (String.le_iff_toList_le.mp
      (List.rel_of_sorted_cons h _ (List.mem_singleton.mpr rfl)))
    (by decide)

/-- Sample reduce spec for the C9 witness: group by `region`, one `count`
metric. -/
def sampleReduceSpec : ReduceSpec :=
  { groupBy := ["region"], metrics := [⟨.count, none, "orders"⟩] }

/-- Two partials for the C9 witness, groups `us` and `br`. -/
def sampleReduceRows : List Row :=
  [[("_id", .obj [("region", .str "us")]), ("orders", .num 2), ("__input_count", .num 2)],
   [("_id", .obj [("region", .str "br")]), ("orders", .num 1), ("__input_count", .num 1)]]

/-- The accumulator state after consuming `sampleReduceRows`. -/
def sampleReduceState : AccState :=
  [("\x7b\"region\":\"us\"\x7d",
    { group := [("region", .str "us")], values := [("orders", .num 2)], averages := [],
      inputCount := 2 }),
   ("\x7b\"region\":\"br\"\x7d",
    { group := [("region", .str "br")], values := [("orders", .num 1)], averages := [],
      inputCount := 1 })]

/-- C9 witness: the theorem applied to the code-point collation (a total,
transitive collation, that of a host collating by code point) and two
concrete partials with distinct groups consumed into one accumulator, the
hypotheses discharged by evaluation and explicit terms. -/
theorem toReduceSummary_spec_witness :
    (toReduceSummary codePointLe sampleReduceSpec sampleReduceState).rowsOut =
      ((sampleReduceRows.map (groupKeyOf sampleReduceSpec)).toFinset).card ∧
    ((finalizeEntries codePointLe sampleReduceState).map
      (fun e => stringify (.obj e.2.group))).Nodup ∧
    ((finalizeEntries codePointLe sampleReduceState).map
      (fun e => stringify (.obj e.2.group))).toFinset =
      (sampleReduceRows.map (groupKeyOf sampleReduceSpec)).toFinset ∧
    List.Sorted (fun a b => codePointLe a b = true)
      ((finalizeEntries codePointLe sampleReduceState).map
        (fun e => stringify (.obj e.2.group))) ∧
    (toReduceSummary codePointLe sampleReduceSpec sampleReduceState).rowsIn =
      (sampleReduceRows.map inputCountOf).sum ∧
    (∀ m ∈ sampleReduceSpec.metrics, m.op = .avg →
      ∀ e ∈ finalizeEntries codePointLe sampleReduceState,
        mapGet (buildOutputRow sampleReduceSpec e.2) m.as = some (avgOutput e.2 m.as)) :=
  toReduceSummary_spec codePointLe
    (fun a b => by simpa [codePointLe, decide_eq_true_eq] using le_total a b)
    (fun a b c hab hbc => by
      simp only [codePointLe, decide_eq_true_eq] at hab hbc ⊢
      exact le_trans hab hbc)
    sampleReduceSpec none sampleReduceRows sampleReduceState rfl
    (by with_unfolding_all rfl)
